import Mathlib

/-!
# The in-memory container store (`container/memory_store.go`)

A shallow embedding of `memoryStore`: a Go map from identifiers to container
pointers guarded by a reader/writer mutex, with the operations `Add`, `Get`,
`Delete`, `List`, `Size`, `First` and `ApplyAll`.

* A `*Container` is an `Option Container`; `none` is the nil pointer.
* The map is a list of entries with pairwise distinct keys.  A `range` loop
  visits the entries in an order Go leaves unspecified; the order is chosen by
  a `Seed`, and every permutation of the entries is the order of some seed.
* The mutex is explicit state.  An operation that cannot take the lock in the
  state it is started from does not return; this is the result `none`.
* `List` is also given as the run of its steps, to speak of their order.
* Goroutines that call `Add`, `Delete` and `Get` concurrently are step
  machines (take the lock, make the map statement, release the lock) that a
  schedule interleaves on the shared map and mutex.  Which lock a call takes
  and whether its map statement writes the map are two separate tables; a
  data race is a state in which two goroutines are both about to make a map
  statement and one of the statements writes the map.
-/

namespace sync

/-- State of a `sync.RWMutex`: whether a writer holds it and how many readers do.
The zero value is the unlocked mutex. -/
structure RWMutex where
  writer : Bool
  readers : Nat
deriving DecidableEq, Repr

/-- The zero value of `sync.RWMutex`. -/
def RWMutex.zero : RWMutex := { writer := false, readers := 0 }

/-- `rw.Lock()`: proceeds only when nobody holds the mutex. -/
def RWMutex.Lock (rw : RWMutex) : Option RWMutex :=
  if rw.writer = false ∧ rw.readers = 0 then some { rw with writer := true } else none

/-- `rw.Unlock()`: releases the write lock; unlocking a mutex that is not
write-locked is a fatal error. -/
def RWMutex.Unlock (rw : RWMutex) : Option RWMutex :=
  if rw.writer = true then some { rw with writer := false } else none

/-- `rw.RLock()`: proceeds only when no writer holds the mutex. -/
def RWMutex.RLock (rw : RWMutex) : Option RWMutex :=
  if rw.writer = false then some { rw with readers := rw.readers + 1 } else none

/-- `rw.RUnlock()`: releases one read lock; a fatal error when there is none. -/
def RWMutex.RUnlock (rw : RWMutex) : Option RWMutex :=
  if 0 < rw.readers then some { rw with readers := rw.readers - 1 } else none

end sync

namespace container

/-- Modelled from the spec: the `Container` type is declared outside
`memory_store.go`.  The store sees an entity only through its unique identifier
and its creation timestamp. -/
structure Container where
  ID : String
  Created : Int
deriving DecidableEq, Repr

/-- A `*Container`; `none` is nil. -/
abbrev Ptr := Option Container

/-- The choices that fix the order of one `range` loop over a map. -/
abbrev Seed := List Nat

/-- The order in which a `range` loop visits `l` under the choices `seed`:
each choice picks the next entry among those not yet visited. -/
def pickOrder {α : Type} : Seed → List α → List α
  | _, [] => []
  | [], x :: xs => x :: xs
  | k :: ks, x :: xs =>
    (x :: xs).getD (k % (xs.length + 1)) x ::
      pickOrder ks ((x :: xs).eraseIdx (k % (xs.length + 1)))

/-- Removal of the entry for `id` from a list of entries. -/
def dropKey (l : List (String × Ptr)) (id : String) : List (String × Ptr) :=
  l.filter (fun kv => kv.1 != id)

/-- A Go `map[string]*Container`: entries with pairwise distinct keys. -/
structure GoMap where
  entries : List (String × Ptr)
  nodup : (entries.map Prod.fst).Nodup

/-- The value of `make(map[string]*Container)`. -/
def GoMap.make : GoMap := ⟨[], List.nodup_nil⟩

/-- The expression `m[id]`: the stored pointer, or the zero value nil when
`id` is not a key. -/
def GoMap.index (m : GoMap) (id : String) : Ptr :=
  match m.entries.lookup id with
  | some p => p
  | none => none

/-- The statement `m[id] = cont`. -/
def GoMap.assign (m : GoMap) (id : String) (cont : Ptr) : GoMap :=
  ⟨(id, cont) :: dropKey m.entries id, by
    rw [List.map_cons, List.nodup_cons]
    refine ⟨fun h => ?_, List.Nodup.sublist (List.Sublist.map _ (List.filter_sublist _)) m.nodup⟩
    obtain ⟨kv, hkv, hk⟩ := List.mem_map.1 h
    have hne := (List.mem_filter.1 hkv).2
    simp [hk] at hne⟩

/-- The statement `delete(m, id)`. -/
def GoMap.delete (m : GoMap) (id : String) : GoMap :=
  ⟨dropKey m.entries id,
    List.Nodup.sublist (List.Sublist.map _ (List.filter_sublist _)) m.nodup⟩

/-- The expression `len(m)`. -/
def GoMap.len (m : GoMap) : Nat := m.entries.length

/-- The entries of `m` in the order one `range` loop visits them. -/
def GoMap.range (m : GoMap) (seed : Seed) : List (String × Ptr) :=
  pickOrder seed m.entries

/-- The type `memoryStore`: the map `s` and the embedded `sync.RWMutex`. -/
structure memoryStore where
  s : GoMap
  RWMutex : sync.RWMutex

/-- `NewMemoryStore()`. -/
def NewMemoryStore : memoryStore :=
  { s := GoMap.make, RWMutex := sync.RWMutex.zero }

/-- `Add`: under the write lock, `c.s[id] = cont`. -/
def memoryStore.Add (c : memoryStore) (id : String) (cont : Ptr) : Option memoryStore := do
  let mu ← c.RWMutex.Lock
  let s := c.s.assign id cont
  let mu ← mu.Unlock
  pure { s := s, RWMutex := mu }

/-- `Get`: under the read lock, `res := c.s[id]`; returns `res`. -/
def memoryStore.Get (c : memoryStore) (id : String) : Option (Ptr × memoryStore) := do
  let mu ← c.RWMutex.RLock
  let res := c.s.index id
  let mu ← mu.RUnlock
  pure (res, { c with RWMutex := mu })

/-- `Delete`: under the write lock, `delete(c.s, id)`. -/
def memoryStore.Delete (c : memoryStore) (id : String) : Option memoryStore := do
  let mu ← c.RWMutex.Lock
  let s := c.s.delete id
  let mu ← mu.Unlock
  pure { s := s, RWMutex := mu }

/-- `Size`: under the read lock (released by the deferred `RUnlock`),
returns `len(c.s)`. -/
def memoryStore.Size (c : memoryStore) : Option (Nat × memoryStore) := do
  let mu ← c.RWMutex.RLock
  let res := c.s.len
  let mu ← mu.RUnlock
  pure (res, { c with RWMutex := mu })

/-- A store between two calls: nobody holds its mutex. -/
def memoryStore.idle (c : memoryStore) : Prop := c.RWMutex = sync.RWMutex.zero

/-- The type `StoreFilter`, `func(*Container) bool`, as a function without
side effects. -/
abbrev StoreFilter := Ptr → Bool

/-- The type `StoreReducer`, `func(*Container)`: one call changes the state
`σ` the reducer works on.  That state does not contain the store. -/
abbrev StoreReducer (σ : Type) := Ptr → σ → σ

/-- The loop of `First` over the entries in visiting order: returns the first
container the filter accepts, nil after the last entry. -/
def firstMatch (filter : StoreFilter) : List (String × Ptr) → Ptr
  | [] => none
  | kv :: rest => if filter kv.2 then kv.2 else firstMatch filter rest

/-- `First`: under the read lock (released by the deferred `RUnlock`), ranges
over `c.s` and returns the first container accepted by `filter`, else nil. -/
def memoryStore.First (c : memoryStore) (seed : Seed) (filter : StoreFilter) :
    Option (Ptr × memoryStore) := do
  let mu ← c.RWMutex.RLock
  let res := firstMatch filter (c.s.range seed)
  let mu ← mu.RUnlock
  pure (res, { c with RWMutex := mu })

/-- What the goroutines of one `ApplyAll` call share: the `sync.WaitGroup`
counter `wg`, the arguments of the goroutines started and not yet run, and the
state the reducer works on. -/
structure Fanout (σ : Type) where
  wg : Nat
  started : List Ptr
  world : σ

/-- One started goroutine, picked by `k`, runs: `apply(container)`, then
`wg.Done()`. -/
def Fanout.run {σ : Type} (apply : StoreReducer σ) (k : Nat) (f : Fanout σ) : Fanout σ :=
  match f.started with
  | [] => f
  | x :: xs =>
    { wg := f.wg - 1,
      started := (x :: xs).eraseIdx (k % (xs.length + 1)),
      world := apply ((x :: xs).getD (k % (xs.length + 1)) x) f.world }

/-- The goroutines that run between two statements of the calling goroutine:
one per choice in `ks`. -/
def Fanout.runMany {σ : Type} (apply : StoreReducer σ) (ks : Seed) (f : Fanout σ) : Fanout σ :=
  ks.foldl (fun g k => g.run apply k) f

/-- The scheduler's choices for one `ApplyAll` call: for every iteration of the
loop, which started goroutines run before the next iteration. -/
abbrev Schedule := List Seed

/-- The loop of `ApplyAll` over the containers in visiting order: `wg.Add(1)`,
then the `go` statement starts a goroutine with argument `cont`. -/
def spawnAll {σ : Type} (apply : StoreReducer σ) : Schedule → List Ptr → Fanout σ → Fanout σ
  | _, [], f => f
  | sched, cont :: rest, f =>
    spawnAll apply sched.tail rest
      (Fanout.runMany apply (sched.headD [])
        { f with wg := f.wg + 1, started := f.started ++ [cont] })

/-- `wg.Wait()`: the goroutines still started run, in the order `last` picks;
the call returns when the counter is zero. -/
def Fanout.Wait {σ : Type} (apply : StoreReducer σ) (last : Seed) (f : Fanout σ) :
    Option (Fanout σ) :=
  let g : Fanout σ :=
    (pickOrder last f.started).foldl
      (fun g p => { wg := g.wg - 1, started := [], world := apply p g.world })
      { f with started := [] }
  if g.wg = 0 then some g else none

/-- `ApplyAll`: under the read lock (released by the deferred `RUnlock`),
starts one goroutine per entry of `c.s`, each calling `apply` on the entry's
container, and waits for all of them. -/
def memoryStore.ApplyAll {σ : Type} (c : memoryStore) (seed : Seed) (sched : Schedule)
    (last : Seed) (apply : StoreReducer σ) (w : σ) : Option (σ × memoryStore) := do
  let mu ← c.RWMutex.RLock
  let f := spawnAll apply sched ((c.s.range seed).map Prod.snd)
    { wg := 0, started := [], world := w }
  let f ← f.Wait apply last
  let mu ← mu.RUnlock
  pure (f.world, { c with RWMutex := mu })

/-- A Go slice of type `History`, whose underlying type is `[]*Container`
(`List` returns `*containers` as a `[]*Container`): the nil slice or a slice
with elements. -/
inductive History where
  | nil
  | slice (elems : List Ptr)
deriving DecidableEq, Repr

/-- The elements of a slice; the nil slice has none. -/
def History.elems : History → List Ptr
  | History.nil => []
  | History.slice l => l

/-- The expression `len(h)`. -/
def History.len (h : History) : Nat := h.elems.length

/-- Modelled from the spec: the method `History.Add` is defined outside
`memory_store.go`.  `List` "copies references to all current entities into a
working collection": the method appends the container to the slice. -/
def History.Add (h : History) (cont : Ptr) : History :=
  History.slice (h.elems ++ [cont])

/-- Modelled from the spec: the order of `History.sort`, "by `createdAt`
ascending".  A nil pointer has no creation time; it is placed before every
container. -/
def createdLE : Ptr → Ptr → Bool
  | none, _ => true
  | some _, none => false
  | some a, some b => decide (a.Created ≤ b.Created)

/-- Insertion of `p` before the first element created later than `p`. -/
def insertByCreated (p : Ptr) : List Ptr → List Ptr
  | [] => [p]
  | q :: qs => if createdLE p q then p :: q :: qs else q :: insertByCreated p qs

/-- Sorting by creation time. -/
def sortByCreated : List Ptr → List Ptr
  | [] => []
  | p :: ps => insertByCreated p (sortByCreated ps)

/-- Modelled from the spec: the method `History.sort` is defined outside
`memory_store.go`.  It "sorts the working collection by `createdAt`
ascending", in place: the nil slice stays nil. -/
def History.sort : History → History
  | History.nil => History.nil
  | History.slice l => History.slice (sortByCreated l)

/-- `List`: `containers := new(History)` is the nil slice; under the read lock
every container of `c.s` is added to it; after `RUnlock` it is sorted and
returned. -/
def memoryStore.List (c : memoryStore) (seed : Seed) : Option (History × memoryStore) := do
  let containers := History.nil
  let mu ← c.RWMutex.RLock
  let containers := (c.s.range seed).foldl (fun h kv => h.Add kv.2) containers
  let mu ← mu.RUnlock
  let containers := containers.sort
  pure (containers, { c with RWMutex := mu })

/-- One call of a sequence of `Add` and `Delete` calls. -/
inductive Call where
  | add (id : String) (cont : Ptr)
  | delete (id : String)
deriving DecidableEq, Repr

/-- The identifier a call mentions. -/
def Call.id : Call → String
  | Call.add id _ => id
  | Call.delete id => id

/-- Whether the call is an `Add`. -/
def Call.isAdd : Call → Bool
  | Call.add _ _ => true
  | Call.delete _ => false

/-- The calls of a sequence made one after the other, each on the store the
call before it left. -/
def runCalls : memoryStore → List Call → Option memoryStore
  | c, [] => some c
  | c, Call.add id cont :: rest => (c.Add id cont).bind (fun c1 => runCalls c1 rest)
  | c, Call.delete id :: rest => (c.Delete id).bind (fun c1 => runCalls c1 rest)

/-- The last call of the sequence that mentions `id`, if there is one. -/
def lastCall (calls : List Call) (id : String) : Option Call :=
  (calls.filter (fun x => x.id == id)).getLast?

/-- The distinct identifiers of the sequence whose last call is an `Add`:
those added without a later `Delete`. -/
def addedNotDeleted (calls : List Call) : List String :=
  ((calls.map Call.id).dedup).filter (fun id => ((lastCall calls id).map Call.isAdd) == some true)

/-- What the map holds for `id` after a sequence of calls, from the last call
that mentions `id`. -/
def lookupAfter (before : Option Ptr) : Option Call → Option Ptr
  | none => before
  | some (Call.add _ cont) => some cont
  | some (Call.delete _) => none

/-- A store with three containers, added with creation times 3, 1 and 2. -/
def threeStore : memoryStore :=
  { s := ((GoMap.make.assign "x" (some ⟨"x", 3⟩)).assign "y" (some ⟨"y", 1⟩)).assign
      "z" (some ⟨"z", 2⟩),
    RWMutex := sync.RWMutex.zero }

/-- A store that holds one container under the two identifiers "a" and "b". -/
def sharedStore : memoryStore :=
  { s := (GoMap.make.assign "a" (some ⟨"a", 1⟩)).assign "b" (some ⟨"a", 1⟩),
    RWMutex := sync.RWMutex.zero }

/-- The state a reducer leaves after it was called on `args`, one call after
the other, from the state `w`. -/
def callsOn {σ : Type} (apply : StoreReducer σ) (w : σ) (args : List Ptr) : σ :=
  args.foldl (fun v p => apply p v) w

/-- What holds of the goroutines of one `ApplyAll` call between two steps: the
counter is the number of goroutines started and not yet run, and the reducer
has been called once on each container of `total` that is not among them. -/
def Fanout.Inv {σ : Type} (apply : StoreReducer σ) (w : σ) (total : List Ptr)
    (f : Fanout σ) : Prop :=
  f.wg = f.started.length ∧
    ∃ done : List Ptr, f.world = callsOn apply w done ∧ (done ++ f.started).Perm total

/-- The store of the scenario: `Add("a", {created:1})`, `Add("b", {created:3})`,
`Add("c", {created:2})` on a new store. -/
def scenarioStore : memoryStore :=
  { s := ((GoMap.make.assign "a" (some ⟨"a", 1⟩)).assign "b" (some ⟨"b", 3⟩)).assign
      "c" (some ⟨"c", 2⟩),
    RWMutex := sync.RWMutex.zero }

/-- A store that holds a nil pointer under "n" and a container under "m". -/
def nilStore : memoryStore :=
  { s := (GoMap.make.assign "n" none).assign "m" (some ⟨"m", 5⟩),
    RWMutex := sync.RWMutex.zero }

/-- The map of `threeStore` while two other readers hold the mutex. -/
def readStore : memoryStore :=
  { s := threeStore.s, RWMutex := { writer := false, readers := 2 } }

/-- The steps of one `List` call: `c.RLock()`, one `containers.Add(cont)` per
iteration of the loop, `c.RUnlock()`, `containers.sort()`. -/
inductive ListStep where
  | RLock
  | Add (cont : Ptr)
  | RUnlock
  | sort
deriving DecidableEq, Repr

/-- What the steps of a `List` call work on: the mutex of the store and the
local variable `containers`. -/
structure ListState where
  RWMutex : sync.RWMutex
  containers : History

/-- One step of a `List` call. -/
def ListStep.exec : ListStep → ListState → Option ListState
  | ListStep.RLock, st => st.RWMutex.RLock.map (fun mu => { st with RWMutex := mu })
  | ListStep.Add cont, st => some { st with containers := st.containers.Add cont }
  | ListStep.RUnlock, st => st.RWMutex.RUnlock.map (fun mu => { st with RWMutex := mu })
  | ListStep.sort, st => some { st with containers := st.containers.sort }

/-- The steps of `List` on the store `c`, in the order of the source, when the
loop visits the entries in the order `seed` fixes. -/
def ListSteps (c : memoryStore) (seed : Seed) : List ListStep :=
  ListStep.RLock :: ((c.s.range seed).map (fun kv => ListStep.Add kv.2) ++
    [ListStep.RUnlock, ListStep.sort])

/-- The steps made one after the other; each step is recorded with the state of
the mutex it starts in. -/
def runListSteps : List ListStep → ListState → Option (List (ListStep × sync.RWMutex) × ListState)
  | [], st => some ([], st)
  | x :: xs, st =>
    (x.exec st).bind (fun st1 =>
      (runListSteps xs st1).map (fun r => ((x, st.RWMutex) :: r.1, r.2)))

/-- One call a goroutine makes on the store: `Add`, `Delete` or `Get`. -/
inductive Op where
  | add (id : String) (cont : Ptr)
  | delete (id : String)
  | get (id : String)
deriving DecidableEq, Repr

/-- The identifier a call is about. -/
def Op.id : Op → String
  | Op.add id _ => id
  | Op.delete id => id
  | Op.get id => id

/-- Which lock the call takes: `Add` and `Delete` call `c.Lock()` and
`c.Unlock()`, `Get` calls `c.RLock()` and `c.RUnlock()`. -/
def Op.takesWriteLock : Op → Bool
  | Op.add _ _ => true
  | Op.delete _ => true
  | Op.get _ => false

/-- What the map statement of the call does to the map: `c.s[id] = cont` and
`delete(c.s, id)` write it, `res := c.s[id]` reads it. -/
def Op.writesMap : Op → Bool
  | Op.add _ _ => true
  | Op.delete _ => true
  | Op.get _ => false

/-- The statement a call makes on the map between taking and releasing the
lock: `c.s[id] = cont`, `delete(c.s, id)`, or the read `c.s[id]`. -/
def Op.access : Op → GoMap → GoMap
  | Op.add id cont, m => m.assign id cont
  | Op.delete id, m => m.delete id
  | Op.get _, m => m

/-- The call made alone, from start to return. -/
def Op.call : Op → memoryStore → Option memoryStore
  | Op.add id cont, c => c.Add id cont
  | Op.delete id, c => c.Delete id
  | Op.get id, c => (c.Get id).map Prod.snd

/-- Calls made one after the other by one goroutine. -/
def runOps : memoryStore → List Op → Option memoryStore
  | c, [] => some c
  | c, op :: rest => (op.call c).bind (fun c1 => runOps c1 rest)

/-- Where a goroutine is inside its current call: before taking the lock,
holding the lock before the map statement, or after the map statement and
before releasing the lock. -/
inductive Phase where
  | start
  | locked
  | accessed
deriving DecidableEq, Repr

/-- A goroutine that makes the calls `calls` in order: `next` is the index of
its current call. -/
structure Goroutine where
  calls : List Op
  next : Nat
  phase : Phase
deriving DecidableEq, Repr

/-- A goroutine about to make its first call. -/
def Goroutine.init (calls : List Op) : Goroutine :=
  { calls := calls, next := 0, phase := Phase.start }

/-- The goroutine has returned from its last call. -/
def Goroutine.finished (g : Goroutine) : Bool :=
  g.calls.length ≤ g.next && g.phase == Phase.start

/-- One step of a goroutine on the shared store: it takes the lock of its
current call, or makes the map statement, or releases the lock.  There is no
step when the lock cannot be taken or when all calls are made. -/
def Goroutine.step (g : Goroutine) (c : memoryStore) : Option (Goroutine × memoryStore) :=
  match g.calls[g.next]? with
  | none => none
  | some op =>
    match g.phase with
    | Phase.start =>
      (if op.takesWriteLock then c.RWMutex.Lock else c.RWMutex.RLock).map
        (fun mu => ({ g with phase := Phase.locked }, { c with RWMutex := mu }))
    | Phase.locked =>
      some ({ g with phase := Phase.accessed }, { c with s := op.access c.s })
    | Phase.accessed =>
      (if op.takesWriteLock then c.RWMutex.Unlock else c.RWMutex.RUnlock).map
        (fun mu => ({ g with next := g.next + 1, phase := Phase.start }, { c with RWMutex := mu }))

/-- The step of the goroutine with index `i`. -/
def stepAt : List Goroutine → Nat → memoryStore → Option (List Goroutine × memoryStore)
  | [], _, _ => none
  | g :: gs, 0, c => (g.step c).map (fun r => (r.1 :: gs, r.2))
  | g :: gs, i + 1, c => (stepAt gs i c).map (fun r => (g :: r.1, r.2))

/-- An interleaving: the scheduler picks goroutines one after the other; a pick
that has no step is passed over. -/
def runSchedule : List Nat → List Goroutine × memoryStore → List Goroutine × memoryStore
  | [], w => w
  | i :: rest, w => runSchedule rest ((stepAt w.1 i w.2).getD w)

/-- The goroutine is between taking and releasing the write lock. -/
def Goroutine.holdsW (g : Goroutine) : Bool :=
  match g.calls[g.next]? with
  | none => false
  | some op => g.phase != Phase.start && op.takesWriteLock

/-- The goroutine is between taking and releasing the read lock. -/
def Goroutine.holdsR (g : Goroutine) : Bool :=
  match g.calls[g.next]? with
  | none => false
  | some op => g.phase != Phase.start && !op.takesWriteLock

/-- The map statement the goroutine makes with its next step, if its next step
is a map statement. -/
def Goroutine.atStatement (g : Goroutine) : Option Op :=
  if g.phase = Phase.locked then g.calls[g.next]? else none

/-- A data race between two goroutines: the next step of each is a statement on
the map, and one of the two statements writes the map. -/
def races (g h : Goroutine) : Prop :=
  ∃ a b, g.atStatement = some a ∧ h.atStatement = some b ∧
    (a.writesMap = true ∨ b.writesMap = true)

/-- No identifier of the calls `p` is an identifier of the calls `q`. -/
def disjointIds (p q : List Op) : Prop := ∀ a ∈ p, ∀ b ∈ q, a.id ≠ b.id

/-- What a map holds under each identifier: no entry, or a pointer. -/
abbrev Lookup := String → Option Ptr

/-- What the map `m` holds under each identifier. -/
def GoMap.lookupFn (m : GoMap) : Lookup := fun id => m.entries.lookup id

/-- What a call changes in what a map holds. -/
def Op.effect : Op → Lookup → Lookup
  | Op.add id cont, f => Function.update f id (some cont)
  | Op.delete id, f => Function.update f id none
  | Op.get _, f => f

/-- What calls, made in order, change in what a map holds. -/
def effects (ops : List Op) (f : Lookup) : Lookup :=
  ops.foldl (fun f op => op.effect f) f

/-- The calls of a goroutine whose map statement has been made. -/
def Goroutine.performed (g : Goroutine) : List Op :=
  g.calls.take (g.next + (if g.phase = Phase.accessed then 1 else 0))

/-- The tally: what a map holds after the calls every goroutine has performed,
taken goroutine by goroutine. -/
def tally (gs : List Goroutine) (f : Lookup) : Lookup :=
  gs.foldl (fun f g => effects g.performed f) f

/-- A goroutine inside a call has a current call. -/
def Goroutine.wf (g : Goroutine) : Prop :=
  g.phase = Phase.start ∨ g.next < g.calls.length

/-- The number of steps a goroutine has left. -/
def Goroutine.remaining (g : Goroutine) : Nat :=
  3 * (g.calls.length - g.next) -
    (match g.phase with
      | Phase.start => 0
      | Phase.locked => 1
      | Phase.accessed => 2)

/-- The number of goroutines that hold the write lock. -/
def writers (gs : List Goroutine) : Nat := gs.countP Goroutine.holdsW

/-- The number of goroutines that hold the read lock. -/
def readers (gs : List Goroutine) : Nat := gs.countP Goroutine.holdsR

/-- The lock discipline between the goroutines and the mutex: the write lock is
held by as many goroutines as the writer flag says, the read lock by as many as
the reader count says, and never both. -/
def Safe (gs : List Goroutine) (c : memoryStore) : Prop :=
  (∀ g ∈ gs, g.wf) ∧
  writers gs = (if c.RWMutex.writer then 1 else 0) ∧
  readers gs = c.RWMutex.readers ∧
  (c.RWMutex.writer = true → c.RWMutex.readers = 0)

instance (p q : List Op) : Decidable (disjointIds p q) := by
  unfold disjointIds; infer_instance

/-- Two goroutines: one adds, reads and deletes "a", the other adds and reads
"b". -/
def twoGoroutines : List (List Op) :=
  [[Op.add "a" none, Op.get "a", Op.delete "a"], [Op.add "b" (some ⟨"b", 1⟩), Op.get "b"]]

/-! ## The calls return on a store nobody holds -/

theorem idle_eq (c : memoryStore) (h : c.idle) : c = { s := c.s, RWMutex := sync.RWMutex.zero } := by
  cases c
  simp only [memoryStore.idle] at h
  simp [h]

theorem Add_of_idle (c : memoryStore) (h : c.idle) (id : String) (cont : Ptr) :
    c.Add id cont = some { s := c.s.assign id cont, RWMutex := sync.RWMutex.zero } := by
  rw [idle_eq c h]; rfl

theorem Delete_of_idle (c : memoryStore) (h : c.idle) (id : String) :
    c.Delete id = some { s := c.s.delete id, RWMutex := sync.RWMutex.zero } := by
  rw [idle_eq c h]; rfl

theorem Get_of_idle (c : memoryStore) (h : c.idle) (id : String) :
    c.Get id = some (c.s.index id, c) := by
  rw [idle_eq c h]; rfl

theorem Size_of_idle (c : memoryStore) (h : c.idle) : c.Size = some (c.s.len, c) := by
  rw [idle_eq c h]; rfl

theorem First_of_idle (c : memoryStore) (h : c.idle) (seed : Seed) (filter : StoreFilter) :
    c.First seed filter = some (firstMatch filter (c.s.range seed), c) := by
  rw [idle_eq c h]; rfl

theorem List_of_idle (c : memoryStore) (h : c.idle) (seed : Seed) :
    c.List seed
      = some (((c.s.range seed).foldl (fun h kv => h.Add kv.2) History.nil).sort, c) := by
  rw [idle_eq c h]; rfl

/-! ## The map -/

theorem lookup_dropKey_self (l : List (String × Ptr)) (id : String) :
    (dropKey l id).lookup id = none := by
  induction l with
  | nil => rfl
  | cons kv l ih =>
    obtain ⟨k, v⟩ := kv
    by_cases hk : k = id
    · simp [dropKey, hk] ; simpa [dropKey] using ih
    · have : (id == k) = false := by simp [Ne.symm hk]
      simp [dropKey, hk, List.lookup, this]; simpa [dropKey] using ih

theorem lookup_dropKey_other (l : List (String × Ptr)) (id k : String) (h : k ≠ id) :
    (dropKey l id).lookup k = l.lookup k := by
  induction l with
  | nil => rfl
  | cons kv l ih =>
    obtain ⟨k', v⟩ := kv
    by_cases hk : k' = id
    · subst hk
      have : (k == k') = false := by simp [h]
      simp [dropKey, List.lookup, this]; simpa [dropKey] using ih
    · by_cases hkk : k = k'
      · simp [dropKey, hk, List.lookup, hkk]
      · have : (k == k') = false := by simp [hkk]
        simp [dropKey, hk, List.lookup, this]; simpa [dropKey] using ih

theorem lookup_eq_none_iff (l : List (String × Ptr)) (id : String) :
    l.lookup id = none ↔ id ∉ l.map Prod.fst := by
  induction l with
  | nil => simp
  | cons kv l ih =>
    obtain ⟨k, v⟩ := kv
    by_cases hk : id = k
    · simp [List.lookup, hk]
    · have : (id == k) = false := by simp [hk]
      simp [List.lookup, this, hk, ih]

theorem dropKey_of_not_mem (l : List (String × Ptr)) (id : String)
    (h : id ∉ l.map Prod.fst) : dropKey l id = l := by
  unfold dropKey
  rw [List.filter_eq_self]
  intro kv hkv
  have : kv.1 ≠ id := fun e => h (List.mem_map.2 ⟨kv, hkv, e⟩)
  simpa using this

theorem count_key_assign (m : GoMap) (id : String) (cont : Ptr) :
    ((m.assign id cont).entries.map Prod.fst).count id = 1 := by
  have hn : id ∉ (dropKey m.entries id).map Prod.fst := by
    rw [← lookup_eq_none_iff]; exact lookup_dropKey_self _ _
  simp [GoMap.assign, List.count_cons, List.count_eq_zero_of_not_mem hn]

theorem index_assign_self (m : GoMap) (id : String) (cont : Ptr) :
    (m.assign id cont).index id = cont := by
  simp [GoMap.index, GoMap.assign, List.lookup]

theorem index_delete_self (m : GoMap) (id : String) : (m.delete id).index id = none := by
  simp [GoMap.index, GoMap.delete, lookup_dropKey_self]

/-- C1: on every store nobody holds, `Add(id, e1)` and then `Add(id, e2)` both
return; `Get(id)` gives `e1` after the first and `e2` after the second, and
after each of them the map has exactly one entry with key `id`. -/
theorem add_add_get (c : memoryStore) (h : c.idle) (id : String) (e1 e2 : Ptr) :
    ∃ c1 c2, c.Add id e1 = some c1 ∧ c1.Add id e2 = some c2 ∧
      c1.Get id = some (e1, c1) ∧ c2.Get id = some (e2, c2) ∧
      (c1.s.entries.map Prod.fst).count id = 1 ∧
      (c2.s.entries.map Prod.fst).count id = 1 := by
  have i1 : memoryStore.idle { s := c.s.assign id e1, RWMutex := sync.RWMutex.zero } := rfl
  have i2 : memoryStore.idle
      { s := (c.s.assign id e1).assign id e2, RWMutex := sync.RWMutex.zero } := rfl
  refine ⟨_, _, Add_of_idle c h id e1, Add_of_idle _ i1 id e2, ?_, ?_,
    count_key_assign _ _ _, count_key_assign _ _ _⟩
  · rw [Get_of_idle _ i1, index_assign_self]
  · rw [Get_of_idle _ i2, index_assign_self]

theorem add_add_get_witness :
    NewMemoryStore.idle ∧
    ∃ c1 c2, NewMemoryStore.Add "a" (some ⟨"a", 1⟩) = some c1 ∧
      c1.Add "a" (some ⟨"b", 2⟩) = some c2 ∧
      c1.Get "a" = some (some ⟨"a", 1⟩, c1) ∧ c2.Get "a" = some (some ⟨"b", 2⟩, c2) ∧
      (c1.s.entries.map Prod.fst).count "a" = 1 ∧
      (c2.s.entries.map Prod.fst).count "a" = 1 :=
  ⟨rfl, add_add_get NewMemoryStore rfl "a" (some ⟨"a", 1⟩) (some ⟨"b", 2⟩)⟩

/-! ## Sequences of `Add` and `Delete` calls -/

theorem runCalls_append (c : memoryStore) (l₁ l₂ : List Call) :
    runCalls c (l₁ ++ l₂) = (runCalls c l₁).bind (fun c1 => runCalls c1 l₂) := by
  induction l₁ generalizing c with
  | nil => rfl
  | cons x l ih =>
    cases x with
    | add id cont =>
      simp only [List.cons_append, runCalls]
      cases c.Add id cont with
      | none => rfl
      | some c1 => simpa using ih c1
    | delete id =>
      simp only [List.cons_append, runCalls]
      cases c.Delete id with
      | none => rfl
      | some c1 => simpa using ih c1

theorem lastCall_nil (id : String) : lastCall [] id = none := rfl

theorem lastCall_concat (l : List Call) (x : Call) (id : String) :
    lastCall (l ++ [x]) id = if x.id = id then some x else lastCall l id := by
  unfold lastCall
  by_cases h : x.id = id
  · simp [List.filter_append, h]
  · simp [List.filter_append, h]

theorem lastCall_mem (calls : List Call) (id : String) (x : Call)
    (h : lastCall calls id = some x) : x ∈ calls ∧ x.id = id := by
  have := List.mem_of_getLast?_eq_some h
  simpa using this

theorem runCalls_lookup (c : memoryStore) (h : c.idle) (calls : List Call) :
    ∃ c1, runCalls c calls = some c1 ∧ c1.idle ∧
      ∀ id, c1.s.entries.lookup id = lookupAfter (c.s.entries.lookup id) (lastCall calls id) := by
  induction calls using List.reverseRecOn with
  | nil => exact ⟨c, rfl, h, fun id => rfl⟩
  | append_singleton l x ih =>
    obtain ⟨c1, hrun, hidle, hlook⟩ := ih
    rw [runCalls_append, hrun]
    cases x with
    | add k cont =>
      refine ⟨{ s := c1.s.assign k cont, RWMutex := sync.RWMutex.zero },
        by simp [runCalls, Add_of_idle c1 hidle k cont], rfl, fun id => ?_⟩
      rw [lastCall_concat]
      by_cases hk : k = id
      · subst hk; simp [Call.id, lookupAfter, GoMap.assign, List.lookup]
      · have hb : (id == k) = false := by simp [Ne.symm hk]
        simp [Call.id, hk, GoMap.assign, List.lookup, hb,
          lookup_dropKey_other _ _ _ (Ne.symm hk), hlook id]
    | delete k =>
      refine ⟨{ s := c1.s.delete k, RWMutex := sync.RWMutex.zero },
        by simp [runCalls, Delete_of_idle c1 hidle k], rfl, fun id => ?_⟩
      rw [lastCall_concat]
      by_cases hk : k = id
      · subst hk; simp [Call.id, lookupAfter, GoMap.delete, lookup_dropKey_self]
      · simp [Call.id, hk, GoMap.delete, lookup_dropKey_other _ _ _ (Ne.symm hk), hlook id]

/-- C2: every sequence of `Add` and `Delete` calls on a new store returns, and
if `id` is never passed to `Add` in it, or the last call that mentions `id` is
`Delete(id)`, then `Get(id)` on the store it leaves returns nil. -/
theorem get_never_added_or_deleted (calls : List Call) (id : String)
    (h : (∀ cont, Call.add id cont ∉ calls) ∨ lastCall calls id = some (Call.delete id)) :
    ∃ c, runCalls NewMemoryStore calls = some c ∧ c.Get id = some (none, c) := by
  obtain ⟨c, hrun, hidle, hlook⟩ := runCalls_lookup NewMemoryStore rfl calls
  refine ⟨c, hrun, ?_⟩
  rw [Get_of_idle c hidle]
  have hnone : c.s.entries.lookup id = none := by
    rw [hlook id]
    rcases h with h | h
    · cases hl : lastCall calls id with
      | none => rfl
      | some x =>
        obtain ⟨hmem, hid⟩ := lastCall_mem calls id x hl
        cases x with
        | add k cont =>
          simp only [Call.id] at hid
          subst hid
          exact absurd hmem (h cont)
        | delete k => rfl
    · rw [h]; rfl
  simp [GoMap.index, hnone]

theorem get_never_added_or_deleted_witness :
    ((∀ cont, Call.add "b" cont ∉ [Call.add "a" none, Call.delete "b"]) ∨
      lastCall [Call.add "a" none, Call.delete "b"] "b" = some (Call.delete "b")) ∧
    ∃ c, runCalls NewMemoryStore [Call.add "a" none, Call.delete "b"] = some c ∧
      c.Get "b" = some (none, c) :=
  ⟨Or.inr (by decide), get_never_added_or_deleted _ "b" (Or.inr (by decide))⟩

/-- C3: every sequence of `Add` and `Delete` calls on a new store returns, and
`Size()` on the store it leaves is the number of distinct identifiers whose
last call in the sequence is an `Add`. -/
theorem size_after_calls (calls : List Call) :
    ∃ c, runCalls NewMemoryStore calls = some c ∧
      c.Size = some ((addedNotDeleted calls).length, c) := by
  obtain ⟨c, hrun, hidle, hlook⟩ := runCalls_lookup NewMemoryStore rfl calls
  refine ⟨c, hrun, ?_⟩
  rw [Size_of_idle c hidle]
  have hperm : (c.s.entries.map Prod.fst).Perm (addedNotDeleted calls) := by
    unfold addedNotDeleted
    rw [List.perm_ext_iff_of_nodup c.s.nodup ((List.nodup_dedup _).filter _)]
    intro id
    have h1 : id ∈ c.s.entries.map Prod.fst ↔ c.s.entries.lookup id ≠ none := by
      rw [Ne, lookup_eq_none_iff, not_not]
    rw [h1, hlook id]
    rw [List.mem_filter, List.mem_dedup]
    cases hl : lastCall calls id with
    | none => simp [lookupAfter, NewMemoryStore, GoMap.make]
    | some x =>
      obtain ⟨hmem, hid⟩ := lastCall_mem calls id x hl
      have hin : id ∈ calls.map Call.id := List.mem_map.2 ⟨x, hmem, hid⟩
      cases x with
      | add k cont => simp [lookupAfter, Call.isAdd, hin]
      | delete k => simp [lookupAfter, Call.isAdd]
  have hlen := hperm.length_eq
  rw [List.length_map] at hlen
  simp [GoMap.len, hlen]

/-! ## The order of a `range` loop -/

theorem getD_cons_eraseIdx_perm {α : Type} (l : List α) (i : Nat) (d : α)
    (h : i < l.length) : (l.getD i d :: l.eraseIdx i).Perm l := by
  induction l generalizing i with
  | nil => simp at h
  | cons x xs ih =>
    cases i with
    | zero => simp
    | succ n =>
      have hn : n < xs.length := by simpa using h
      have := ih n hn
      simp only [List.getD_cons_succ, List.eraseIdx_cons_succ]
      exact (List.Perm.swap x (xs.getD n d) (xs.eraseIdx n)).trans (this.cons x)

theorem pickOrder_perm {α : Type} (seed : Seed) (l : List α) : (pickOrder seed l).Perm l := by
  induction seed generalizing l with
  | nil => cases l <;> simp [pickOrder]
  | cons k ks ih =>
    cases l with
    | nil => simp [pickOrder]
    | cons x xs =>
      have hlt : k % (xs.length + 1) < (x :: xs).length := by
        simpa using Nat.mod_lt k (Nat.succ_pos xs.length)
      simp only [pickOrder]
      exact ((ih _).cons _).trans (getD_cons_eraseIdx_perm (x :: xs) _ x hlt)

theorem pickOrder_complete {α : Type} (p l : List α) (h : p.Perm l) :
    ∃ seed, pickOrder seed l = p := by
  induction p generalizing l with
  | nil =>
    have : l = [] := List.Perm.nil_eq h ▸ rfl
    exact ⟨[], by rw [this]; rfl⟩
  | cons a p ih =>
    have ha : a ∈ l := h.subset (List.mem_cons_self a p)
    obtain ⟨s, t, rfl⟩ := List.append_of_mem ha
    have hp : p.Perm (s ++ t) := (h.trans List.perm_middle).cons_inv
    obtain ⟨ks, hks⟩ := ih (s ++ t) hp
    refine ⟨s.length :: ks, ?_⟩
    cases hl : s ++ a :: t with
    | nil => simp at hl
    | cons x xs =>
      have hlen : xs.length + 1 = s.length + (t.length + 1) := by
        have := congrArg List.length hl
        simp at this; omega
      have hmod : s.length % (xs.length + 1) = s.length := Nat.mod_eq_of_lt (by omega)
      simp only [pickOrder, hmod]
      rw [← hl]
      have h1 : (s ++ a :: t).getD s.length x = a := by
        rw [List.getD_eq_getElem?_getD, List.getElem?_append_right (le_refl _)]
        simp
      have h2 : (s ++ a :: t).eraseIdx s.length = s ++ t := by
        simp [List.eraseIdx_append_of_length_le]
      rw [h1, h2, hks]

theorem pickOrder_nil {α : Type} (seed : Seed) : pickOrder seed ([] : List α) = [] := by
  cases seed <;> rfl

theorem range_perm (m : GoMap) (seed : Seed) : (m.range seed).Perm m.entries :=
  pickOrder_perm seed m.entries

theorem range_complete (m : GoMap) (p : List (String × Ptr)) (h : p.Perm m.entries) :
    ∃ seed, m.range seed = p :=
  pickOrder_complete p m.entries h

/-! ## `History` -/

theorem foldl_Add_cons (l : List (String × Ptr)) (kv : String × Ptr) (h : History) :
    (kv :: l).foldl (fun h kv => h.Add kv.2) h
      = History.slice (h.elems ++ (kv :: l).map Prod.snd) := by
  induction l using List.reverseRecOn generalizing kv h with
  | nil => rfl
  | append_singleton l x ih =>
    rw [← List.cons_append, List.foldl_append, ih]
    simp [History.Add, History.elems]

theorem foldl_Add_elems (l : List (String × Ptr)) (h : History) :
    (l.foldl (fun h kv => h.Add kv.2) h).elems = h.elems ++ l.map Prod.snd := by
  cases l with
  | nil => simp
  | cons kv l => rw [foldl_Add_cons]; rfl

theorem sort_elems (h : History) : h.sort.elems = sortByCreated h.elems := by
  cases h <;> rfl

theorem createdLE_total (p q : Ptr) : createdLE p q = true ∨ createdLE q p = true := by
  cases p with
  | none => left; rfl
  | some a =>
    cases q with
    | none => right; rfl
    | some b => simpa [createdLE] using le_total a.Created b.Created

theorem createdLE_trans (p q r : Ptr) (h1 : createdLE p q = true) (h2 : createdLE q r = true) :
    createdLE p r = true := by
  cases p with
  | none => rfl
  | some a =>
    cases q with
    | none => simp [createdLE] at h1
    | some b =>
      cases r with
      | none => simp [createdLE] at h2
      | some d =>
        simp only [createdLE, decide_eq_true_eq] at *
        exact le_trans h1 h2

theorem insertByCreated_perm (p : Ptr) (l : List Ptr) : (insertByCreated p l).Perm (p :: l) := by
  induction l with
  | nil => rfl
  | cons q qs ih =>
    by_cases h : createdLE p q = true
    · simp [insertByCreated, h]
    · simp only [insertByCreated, h, Bool.false_eq_true, if_false]
      exact (ih.cons q).trans (List.Perm.swap p q qs)

theorem sortByCreated_perm (l : List Ptr) : (sortByCreated l).Perm l := by
  induction l with
  | nil => rfl
  | cons p ps ih => exact (insertByCreated_perm p _).trans (ih.cons p)

theorem insertByCreated_sorted (p : Ptr) (l : List Ptr)
    (h : l.Pairwise (fun a b => createdLE a b = true)) :
    (insertByCreated p l).Pairwise (fun a b => createdLE a b = true) := by
  induction l with
  | nil => simp [insertByCreated]
  | cons q qs ih =>
    obtain ⟨hq, hqs⟩ := List.pairwise_cons.1 h
    by_cases hpq : createdLE p q = true
    · simp only [insertByCreated, hpq, if_true]
      refine List.pairwise_cons.2 ⟨fun x hx => ?_, h⟩
      rcases List.mem_cons.1 hx with rfl | hx
      · exact hpq
      · exact createdLE_trans _ _ _ hpq (hq x hx)
    · simp only [insertByCreated, hpq, Bool.false_eq_true, if_false]
      have hqp : createdLE q p = true := (createdLE_total p q).resolve_left hpq
      refine List.pairwise_cons.2 ⟨fun x hx => ?_, ih hqs⟩
      rcases List.mem_cons.1 ((insertByCreated_perm p qs).subset hx) with rfl | hx
      · exact hqp
      · exact hq x hx

theorem sortByCreated_sorted (l : List Ptr) :
    (sortByCreated l).Pairwise (fun a b => createdLE a b = true) := by
  induction l with
  | nil => exact List.Pairwise.nil
  | cons p ps ih => exact insertByCreated_sorted p _ ih

theorem List_elems (c : memoryStore) (seed : Seed) :
    (((c.s.range seed).foldl (fun h kv => h.Add kv.2) History.nil).sort).elems
      = sortByCreated ((c.s.range seed).map Prod.snd) := by
  rw [sort_elems, foldl_Add_elems]; rfl

/-- C4: on every store nobody holds and for every order of the `range` loop,
`List()` returns, and its result is sorted by ascending creation time: each
element is ordered before every later one, so for positions `i < j` holding
containers `a` and `b`, `a` was created no later than `b`. -/
theorem list_sorted_by_created (c : memoryStore) (h : c.idle) (seed : Seed) :
    ∃ hist, c.List seed = some (hist, c) ∧
      hist.elems.Pairwise (fun a b => createdLE a b = true) ∧
      ∀ (i j : Nat) (a b : Container), i < j →
        hist.elems[i]? = some (some a) → hist.elems[j]? = some (some b) →
        a.Created ≤ b.Created := by
  refine ⟨_, List_of_idle c h seed, ?_, ?_⟩
  · rw [List_elems]; exact sortByCreated_sorted _
  · rw [List_elems]
    intro i j a b hij hi hj
    have hs := sortByCreated_sorted ((c.s.range seed).map Prod.snd)
    rw [List.pairwise_iff_getElem] at hs
    obtain ⟨hi', hia⟩ := List.getElem?_eq_some.1 hi
    obtain ⟨hj', hjb⟩ := List.getElem?_eq_some.1 hj
    have := hs i j hi' hj' hij
    rw [hia, hjb] at this
    simpa [createdLE] using this

theorem list_sorted_by_created_witness :
    threeStore.idle ∧
    (∃ hist, threeStore.List [1] = some (hist, threeStore) ∧
      hist.elems.Pairwise (fun a b => createdLE a b = true) ∧
      ∀ (i j : Nat) (a b : Container), i < j →
        hist.elems[i]? = some (some a) → hist.elems[j]? = some (some b) →
        a.Created ≤ b.Created) ∧
    (threeStore.List [1]).map (fun r => r.1.elems.map (Option.map Container.Created))
      = some [some 1, some 2, some 3] :=
  ⟨rfl, list_sorted_by_created threeStore rfl [1], by decide⟩

/-- C5, as stated, fails: a container stored under two identifiers occurs
twice in the result of `List()`, for every order of the `range` loop. -/
theorem list_repeats_shared_container :
    sharedStore.idle ∧
    sharedStore.s.entries = [("b", some ⟨"a", 1⟩), ("a", some ⟨"a", 1⟩)] ∧
    ∀ seed : Seed, ∃ hist, sharedStore.List seed = some (hist, sharedStore) ∧
      hist.elems = [some ⟨"a", 1⟩, some ⟨"a", 1⟩] ∧ ¬ hist.elems.Nodup := by
  refine ⟨rfl, by decide, fun seed => ⟨_, List_of_idle sharedStore rfl seed, ?_⟩⟩
  have hp : (((sharedStore.s.range seed).foldl (fun h kv => h.Add kv.2) History.nil).sort).elems.Perm
      [some ⟨"a", 1⟩, some ⟨"a", 1⟩] := by
    rw [List_elems]
    exact (sortByCreated_perm _).trans ((range_perm sharedStore.s seed).map Prod.snd)
  have he := (@List.perm_replicate Ptr 2 (some ⟨"a", 1⟩) _).1 hp
  simp only [List.replicate] at he
  rw [he]
  exact ⟨rfl, by decide⟩

/-- C5, amended: on every store nobody holds and for every order of the `range`
loop, `List()` returns one element per map entry: its result is a permutation
of the stored pointers, so a pointer occurs in it exactly as often as there are
identifiers it is stored under, and occurs at all only if it is stored. -/
theorem list_perm_entries (c : memoryStore) (h : c.idle) (seed : Seed) :
    ∃ hist, c.List seed = some (hist, c) ∧
      hist.elems.Perm (c.s.entries.map Prod.snd) ∧
      (∀ p : Ptr, hist.elems.countP (fun q => decide (q = p))
        = c.s.entries.countP (fun kv => decide (kv.2 = p))) ∧
      (∀ p : Ptr, p ∈ hist.elems ↔ ∃ id, (id, p) ∈ c.s.entries) := by
  have hp : (((c.s.range seed).foldl (fun h kv => h.Add kv.2) History.nil).sort).elems.Perm
      (c.s.entries.map Prod.snd) := by
    rw [List_elems]
    exact (sortByCreated_perm _).trans ((range_perm c.s seed).map Prod.snd)
  refine ⟨_, List_of_idle c h seed, hp, fun p => ?_, fun p => ?_⟩
  · rw [hp.countP_eq, List.countP_map]
    rfl
  · rw [hp.mem_iff]
    simp

theorem list_perm_entries_witness :
    sharedStore.idle ∧
    ∃ hist, sharedStore.List [1] = some (hist, sharedStore) ∧
      hist.elems.Perm (sharedStore.s.entries.map Prod.snd) ∧
      (∀ p : Ptr, hist.elems.countP (fun q => decide (q = p))
        = sharedStore.s.entries.countP (fun kv => decide (kv.2 = p))) ∧
      (∀ p : Ptr, p ∈ hist.elems ↔ ∃ id, (id, p) ∈ sharedStore.s.entries) :=
  ⟨rfl, list_perm_entries sharedStore rfl [1]⟩

/-- C9, as stated, fails: on the store `NewMemoryStore()` returns, `List()`
returns the nil slice, so no result of it is a non-nil slice of length 0. -/
theorem list_new_store_is_nil :
    NewMemoryStore.List [] = some (History.nil, NewMemoryStore) ∧
    ¬ ∃ hist c, NewMemoryStore.List [] = some (hist, c) ∧ hist.len = 0 ∧ hist ≠ History.nil := by
  refine ⟨rfl, ?_⟩
  rintro ⟨hist, c, h, -, hne⟩
  have h2 : NewMemoryStore.List [] = some (History.nil, NewMemoryStore) := rfl
  rw [h2] at h
  simp only [Option.some.injEq, Prod.mk.injEq] at h
  exact hne h.1.symm

/-- C9, amended: on every store nobody holds whose map has no entry, `List()`
returns a sequence of length 0, and that sequence is the nil slice. -/
theorem list_empty_store (c : memoryStore) (h : c.idle) (hempty : c.s.len = 0) (seed : Seed) :
    ∃ hist, c.List seed = some (hist, c) ∧ hist.len = 0 ∧ hist.elems = [] ∧
      hist = History.nil := by
  have he : c.s.entries = [] := List.length_eq_zero.1 hempty
  have hr : c.s.range seed = [] := by
    unfold GoMap.range; rw [he]; exact pickOrder_nil seed
  refine ⟨_, List_of_idle c h seed, ?_, ?_, ?_⟩ <;> rw [hr] <;> rfl

theorem list_empty_store_witness :
    NewMemoryStore.idle ∧ NewMemoryStore.s.len = 0 ∧
    ∃ hist, NewMemoryStore.List [3] = some (hist, NewMemoryStore) ∧ hist.len = 0 ∧
      hist.elems = [] ∧ hist = History.nil :=
  ⟨rfl, rfl, list_empty_store NewMemoryStore rfl rfl [3]⟩

/-! ## `First` -/

theorem firstMatch_none (filter : StoreFilter) (l : List (String × Ptr))
    (h : ∀ kv ∈ l, filter kv.2 = false) : firstMatch filter l = none := by
  induction l with
  | nil => rfl
  | cons kv l ih =>
    have h1 : filter kv.2 = false := h kv (List.mem_cons_self _ _)
    simp only [firstMatch, h1, Bool.false_eq_true, if_false]
    exact ih (fun x hx => h x (List.mem_cons_of_mem _ hx))

theorem firstMatch_some (filter : StoreFilter) (l : List (String × Ptr))
    (h : ∃ kv ∈ l, filter kv.2 = true) :
    filter (firstMatch filter l) = true ∧ ∃ kv ∈ l, kv.2 = firstMatch filter l := by
  induction l with
  | nil => simp at h
  | cons kv l ih =>
    by_cases h1 : filter kv.2 = true
    · rw [firstMatch, if_pos h1]
      exact ⟨h1, kv, List.mem_cons_self _ _, rfl⟩
    · simp only [firstMatch, h1, Bool.false_eq_true, if_false]
      obtain ⟨x, hx, hfx⟩ := h
      rcases List.mem_cons.1 hx with rfl | hx
      · exact absurd hfx h1
      · obtain ⟨hf, y, hy, hyv⟩ := ih ⟨x, hx, hfx⟩
        exact ⟨hf, y, List.mem_cons_of_mem _ hy, hyv⟩

/-- C6: on every store nobody holds, for every order of the `range` loop and
every filter, `First(filter)` returns; the result is nil when no stored
container satisfies the filter; when some stored container satisfies it, the
result satisfies the filter and is stored in the map; and when all entries
that satisfy it hold the same container, that container is the result. -/
theorem first_spec (c : memoryStore) (h : c.idle) (seed : Seed) (filter : StoreFilter) :
    ∃ res, c.First seed filter = some (res, c) ∧
      ((∀ kv ∈ c.s.entries, filter kv.2 = false) → res = none) ∧
      ((∃ kv ∈ c.s.entries, filter kv.2 = true) →
        filter res = true ∧ ∃ id, (id, res) ∈ c.s.entries) ∧
      (∀ p : Ptr, (∃ id, (id, p) ∈ c.s.entries) → filter p = true →
        (∀ kv ∈ c.s.entries, filter kv.2 = true → kv.2 = p) → res = p) := by
  have hmem : ∀ kv, kv ∈ c.s.range seed ↔ kv ∈ c.s.entries :=
    fun kv => (range_perm c.s seed).mem_iff
  have hsome : (∃ kv ∈ c.s.entries, filter kv.2 = true) →
      filter (firstMatch filter (c.s.range seed)) = true ∧
        ∃ id, (id, firstMatch filter (c.s.range seed)) ∈ c.s.entries := by
    rintro ⟨kv, hkv, hf⟩
    obtain ⟨hres, y, hy, hyv⟩ :=
      firstMatch_some filter (c.s.range seed) ⟨kv, (hmem kv).2 hkv, hf⟩
    refine ⟨hres, y.1, ?_⟩
    rw [← hyv]
    exact (hmem y).1 hy
  refine ⟨_, First_of_idle c h seed filter, ?_, hsome, ?_⟩
  · intro hall
    exact firstMatch_none filter _ (fun kv hkv => hall kv ((hmem kv).1 hkv))
  · rintro p ⟨id, hid⟩ hp hall
    obtain ⟨hres, id', hid'⟩ := hsome ⟨(id, p), hid, hp⟩
    exact hall _ hid' hres

theorem first_spec_witness :
    threeStore.idle ∧
    ∃ res, threeStore.First [2] (fun p => p == some ⟨"y", 1⟩) = some (res, threeStore) ∧
      ((∀ kv ∈ threeStore.s.entries, (fun p => p == some ⟨"y", 1⟩) kv.2 = false) → res = none) ∧
      ((∃ kv ∈ threeStore.s.entries, (fun p => p == some ⟨"y", 1⟩) kv.2 = true) →
        (fun p => p == some ⟨"y", 1⟩) res = true ∧ ∃ id, (id, res) ∈ threeStore.s.entries) ∧
      (∀ p : Ptr, (∃ id, (id, p) ∈ threeStore.s.entries) →
        (fun p => p == some ⟨"y", 1⟩) p = true →
        (∀ kv ∈ threeStore.s.entries, (fun p => p == some ⟨"y", 1⟩) kv.2 = true → kv.2 = p) →
        res = p) :=
  ⟨rfl, first_spec threeStore rfl [2] (fun p => p == some ⟨"y", 1⟩)⟩

/-! ## `ApplyAll` -/

theorem callsOn_append {σ : Type} (apply : StoreReducer σ) (w : σ) (l₁ l₂ : List Ptr) :
    callsOn apply w (l₁ ++ l₂) = callsOn apply (callsOn apply w l₁) l₂ := by
  simp [callsOn, List.foldl_append]

theorem Inv_run {σ : Type} (apply : StoreReducer σ) (w : σ) (total : List Ptr) (k : Nat)
    (f : Fanout σ) (h : f.Inv apply w total) : (f.run apply k).Inv apply w total := by
  obtain ⟨hwg, done, hworld, hperm⟩ := h
  cases hs : f.started with
  | nil =>
    have hrun : f.run apply k = f := by simp [Fanout.run, hs]
    rw [hrun]
    exact ⟨hwg, done, hworld, hperm⟩
  | cons x xs =>
    have hlt : k % (xs.length + 1) < (x :: xs).length := by
      simpa using Nat.mod_lt k (Nat.succ_pos xs.length)
    have hrun : f.run apply k =
        { wg := f.wg - 1,
          started := (x :: xs).eraseIdx (k % (xs.length + 1)),
          world := apply ((x :: xs).getD (k % (xs.length + 1)) x) f.world } := by
      simp [Fanout.run, hs]
    rw [hrun]
    refine ⟨?_, done ++ [(x :: xs).getD (k % (xs.length + 1)) x], ?_, ?_⟩
    · simp only [hwg, hs, List.length_eraseIdx, hlt, if_true]
    · simp only [callsOn_append, hworld]; rfl
    · rw [hs] at hperm
      refine List.Perm.trans ?_ hperm
      rw [List.append_assoc]
      exact List.Perm.append_left _ (getD_cons_eraseIdx_perm (x :: xs) _ x hlt)

theorem Inv_runMany {σ : Type} (apply : StoreReducer σ) (w : σ) (total : List Ptr) (ks : Seed)
    (f : Fanout σ) (h : f.Inv apply w total) : (f.runMany apply ks).Inv apply w total := by
  unfold Fanout.runMany
  induction ks generalizing f with
  | nil => exact h
  | cons k ks ih => exact ih _ (Inv_run apply w total k f h)

theorem Inv_spawnAll {σ : Type} (apply : StoreReducer σ) (w : σ) (total : List Ptr)
    (sched : Schedule) (l : List Ptr) (f : Fanout σ) (h : f.Inv apply w total) :
    (spawnAll apply sched l f).Inv apply w (total ++ l) := by
  induction l generalizing sched total f with
  | nil => simpa [spawnAll] using h
  | cons cont rest ih =>
    obtain ⟨hwg, done, hworld, hperm⟩ := h
    have hstep : Fanout.Inv apply w (total ++ [cont])
        { f with wg := f.wg + 1, started := f.started ++ [cont] } := by
      refine ⟨by simp [hwg], done, hworld, ?_⟩
      rw [← List.append_assoc]
      exact hperm.append_right _
    have := ih (total ++ [cont]) sched.tail _ (Inv_runMany apply w _ (sched.headD []) _ hstep)
    simpa [spawnAll] using this

theorem Wait_fold {σ : Type} (apply : StoreReducer σ) (ps : List Ptr) (g : Fanout σ) :
    (ps.foldl (fun g p => ({ wg := g.wg - 1, started := [], world := apply p g.world } : Fanout σ))
        g).wg = g.wg - ps.length ∧
    (ps.foldl (fun g p => ({ wg := g.wg - 1, started := [], world := apply p g.world } : Fanout σ))
        g).world = callsOn apply g.world ps := by
  induction ps generalizing g with
  | nil => exact ⟨rfl, rfl⟩
  | cons p ps ih =>
    obtain ⟨h1, h2⟩ := ih { wg := g.wg - 1, started := [], world := apply p g.world }
    simp only [List.foldl_cons, h1, h2, List.length_cons]
    exact ⟨by omega, rfl⟩

theorem Inv_Wait {σ : Type} (apply : StoreReducer σ) (w : σ) (total : List Ptr) (last : Seed)
    (f : Fanout σ) (h : f.Inv apply w total) :
    ∃ g args, f.Wait apply last = some g ∧ g.wg = 0 ∧ args.Perm total ∧
      g.world = callsOn apply w args := by
  obtain ⟨hwg, done, hworld, hperm⟩ := h
  obtain ⟨h1, h2⟩ := Wait_fold apply (pickOrder last f.started) { f with started := [] }
  have hlen : (pickOrder last f.started).length = f.started.length :=
    (pickOrder_perm last f.started).length_eq
  have hzero : ((pickOrder last f.started).foldl
      (fun g p => ({ wg := g.wg - 1, started := [], world := apply p g.world } : Fanout σ))
      { f with started := [] }).wg = 0 := by
    rw [h1, hlen]; simp [hwg]
  refine ⟨_, done ++ pickOrder last f.started, ?_, hzero, ?_, ?_⟩
  · unfold Fanout.Wait
    simp only [hzero, if_true]
  · exact (List.Perm.append_left _ (pickOrder_perm last f.started)).trans hperm
  · rw [h2, callsOn_append]
    simp only [hworld]

theorem ApplyAll_of_idle {σ : Type} (c : memoryStore) (h : c.idle) (seed : Seed)
    (sched : Schedule) (last : Seed) (apply : StoreReducer σ) (w : σ) :
    c.ApplyAll seed sched last apply w
      = ((spawnAll apply sched ((c.s.range seed).map Prod.snd)
          { wg := 0, started := [], world := w }).Wait apply last).map
            (fun f => (f.world, c)) := by
  rw [idle_eq c h]
  unfold memoryStore.ApplyAll
  dsimp only
  cases (spawnAll apply sched ((c.s.range seed).map Prod.snd)
    { wg := 0, started := [], world := w }).Wait apply last <;> rfl

/-- C7: on every store nobody holds, for every order of the `range` loop, every
schedule of the goroutines and every reducer, `ApplyAll(reducer)` returns, and
when it returns the reducer has been called exactly once per map entry: its
arguments are a permutation of the stored pointers.  So a reducer that adds
one to a counter leaves the counter larger by `Size()`. -/
theorem applyAll_once_per_entry {σ : Type} (c : memoryStore) (h : c.idle) (seed : Seed)
    (sched : Schedule) (last : Seed) (apply : StoreReducer σ) (w : σ) (n : Nat) :
    (∃ args : List Ptr, args.Perm (c.s.entries.map Prod.snd) ∧
      c.ApplyAll seed sched last apply w = some (callsOn apply w args, c)) ∧
    (∃ size, c.Size = some (size, c) ∧
      c.ApplyAll seed sched last (fun _ k => k + 1) n = some (n + size, c)) := by
  have key : ∀ (τ : Type) (ap : StoreReducer τ) (v : τ),
      ∃ args : List Ptr, args.Perm (c.s.entries.map Prod.snd) ∧
        c.ApplyAll seed sched last ap v = some (callsOn ap v args, c) := by
    intro τ ap v
    have h0 : Fanout.Inv ap v [] { wg := 0, started := [], world := v } :=
      ⟨rfl, [], rfl, List.Perm.refl _⟩
    have h1 := Inv_spawnAll ap v [] sched ((c.s.range seed).map Prod.snd) _ h0
    obtain ⟨g, args, hw, -, hperm, hworld⟩ := Inv_Wait ap v _ last _ h1
    refine ⟨args, ?_, ?_⟩
    · rw [List.nil_append] at hperm
      exact hperm.trans ((range_perm c.s seed).map Prod.snd)
    · rw [ApplyAll_of_idle c h, hw, ← hworld]; rfl
  refine ⟨key σ apply w, c.s.len, Size_of_idle c h, ?_⟩
  obtain ⟨args, hperm, hrun⟩ := key Nat (fun _ k => k + 1) n
  rw [hrun]
  have hcount : ∀ (l : List Ptr) (m : Nat),
      callsOn (fun _ k => k + 1) m l = m + l.length := by
    intro l
    induction l with
    | nil => intro m; rfl
    | cons p ps ih => intro m; simp only [callsOn, List.foldl_cons] at ih ⊢; rw [ih]; simp; omega
  rw [hcount, hperm.length_eq, List.length_map]
  rfl

theorem applyAll_once_per_entry_witness :
    threeStore.idle ∧
    ((∃ args : List Ptr, args.Perm (threeStore.s.entries.map Prod.snd) ∧
      threeStore.ApplyAll [1] [[0], [], [1, 0]] [0] (fun p l => l ++ [p]) []
        = some (callsOn (fun p l => l ++ [p]) [] args, threeStore)) ∧
    (∃ size, threeStore.Size = some (size, threeStore) ∧
      threeStore.ApplyAll [1] [[0], [], [1, 0]] [0] (fun _ k => k + 1) 5
        = some (5 + size, threeStore))) ∧
    (threeStore.ApplyAll [1] [[0], [], [1, 0]] [0] (fun p l => l ++ [p]) []).map Prod.fst
      = some [some ⟨"y", 1⟩, some ⟨"x", 3⟩, some ⟨"z", 2⟩] ∧
    (threeStore.ApplyAll [1] [[0], [], [1, 0]] [0] (fun _ k => k + 1) 5).map Prod.fst
      = some 8 :=
  ⟨rfl,
    applyAll_once_per_entry threeStore rfl [1] [[0], [], [1, 0]] [0] (fun p l => l ++ [p]) [] 5,
    by decide, by decide⟩

/-! ## `Delete` -/

theorem GoMap_ext (m₁ m₂ : GoMap) (h : m₁.entries = m₂.entries) : m₁ = m₂ := by
  cases m₁; cases m₂; simp only [GoMap.mk.injEq]; exact h

/-- C8: on every store nobody holds, `Delete(id)` returns and leaves a store
nobody holds, with no entry for `id`, so that `Get(id)` returns nil; and when
`id` is not a key of the map before the call, the store after the call is the
store before it, with the same `Size()`, `List()` and `Get`. -/
theorem delete_spec (c : memoryStore) (h : c.idle) (id : String) :
    ∃ c1, c.Delete id = some c1 ∧ c1.idle ∧
      id ∉ c1.s.entries.map Prod.fst ∧ c1.Get id = some (none, c1) ∧
      (id ∉ c.s.entries.map Prod.fst →
        c1 = c ∧ c1.s.entries = c.s.entries ∧ c1.Size = c.Size ∧
        (∀ seed, c1.List seed = c.List seed) ∧ ∀ k, c1.Get k = c.Get k) := by
  have hi : memoryStore.idle { s := c.s.delete id, RWMutex := sync.RWMutex.zero } := rfl
  refine ⟨_, Delete_of_idle c h id, hi, ?_, ?_, fun habs => ?_⟩
  · rw [← lookup_eq_none_iff]; exact lookup_dropKey_self _ _
  · rw [Get_of_idle _ hi, index_delete_self]
  · have hm : c.s.delete id = c.s := GoMap_ext _ _ (dropKey_of_not_mem _ _ habs)
    have hc : ({ s := c.s.delete id, RWMutex := sync.RWMutex.zero } : memoryStore) = c := by
      rw [hm]; exact (idle_eq c h).symm
    rw [hc]
    exact ⟨rfl, rfl, rfl, fun _ => rfl, fun _ => rfl⟩

theorem delete_spec_witness :
    threeStore.idle ∧ "q" ∉ threeStore.s.entries.map Prod.fst ∧
    "x" ∈ threeStore.s.entries.map Prod.fst ∧
    (∃ c1, threeStore.Delete "q" = some c1 ∧ c1.idle ∧
      "q" ∉ c1.s.entries.map Prod.fst ∧ c1.Get "q" = some (none, c1) ∧
      ("q" ∉ threeStore.s.entries.map Prod.fst →
        c1 = threeStore ∧ c1.s.entries = threeStore.s.entries ∧ c1.Size = threeStore.Size ∧
        (∀ seed, c1.List seed = threeStore.List seed) ∧ ∀ k, c1.Get k = threeStore.Get k)) ∧
    (∃ c1, threeStore.Delete "x" = some c1 ∧ c1.idle ∧
      "x" ∉ c1.s.entries.map Prod.fst ∧ c1.Get "x" = some (none, c1) ∧
      ("x" ∉ threeStore.s.entries.map Prod.fst →
        c1 = threeStore ∧ c1.s.entries = threeStore.s.entries ∧ c1.Size = threeStore.Size ∧
        (∀ seed, c1.List seed = threeStore.List seed) ∧ ∀ k, c1.Get k = threeStore.Get k)) :=
  ⟨rfl, by decide, by decide, delete_spec threeStore rfl "q", delete_spec threeStore rfl "x"⟩

/-! ## `NewMemoryStore` -/

/-- C10: the store `NewMemoryStore()` returns is empty: `Size()` is 0, `Get(id)`
is nil for every identifier, `First(filter)` is nil for every filter, `List()`
has no element, and `ApplyAll(reducer)` leaves the state of every reducer as it
was, calling it on no container. -/
theorem new_store_empty :
    NewMemoryStore.Size = some (0, NewMemoryStore) ∧
    (∀ id : String, NewMemoryStore.Get id = some (none, NewMemoryStore)) ∧
    NewMemoryStore.Get "" = some (none, NewMemoryStore) ∧
    (∀ (seed : Seed) (filter : StoreFilter),
      NewMemoryStore.First seed filter = some (none, NewMemoryStore)) ∧
    (∀ seed : Seed, ∃ hist, NewMemoryStore.List seed = some (hist, NewMemoryStore) ∧
      hist.elems = [] ∧ hist.len = 0) ∧
    (∀ (σ : Type) (seed : Seed) (sched : Schedule) (last : Seed) (apply : StoreReducer σ)
      (w : σ), NewMemoryStore.ApplyAll seed sched last apply w = some (w, NewMemoryStore) ∧
        NewMemoryStore.ApplyAll seed sched last apply w
          = some (callsOn apply w [], NewMemoryStore)) := by
  have hr : ∀ seed : Seed, NewMemoryStore.s.range seed = [] := fun seed => pickOrder_nil seed
  have hi : NewMemoryStore.idle := rfl
  refine ⟨rfl, fun _ => rfl, rfl, fun seed filter => ?_, fun seed => ?_, ?_⟩
  · rw [First_of_idle NewMemoryStore hi, hr]; rfl
  · refine ⟨_, List_of_idle NewMemoryStore hi seed, ?_, ?_⟩ <;> rw [hr] <;> rfl
  · intro σ seed sched last apply w
    have : NewMemoryStore.ApplyAll seed sched last apply w = some (w, NewMemoryStore) := by
      rw [ApplyAll_of_idle NewMemoryStore hi, hr]
      simp only [List.map_nil, spawnAll, Fanout.Wait, pickOrder_nil]
      rfl
    exact ⟨this, this⟩

/-! ## What `Add` and `Delete` leave alone -/

theorem length_dropKey_of_mem (l : List (String × Ptr)) (id : String)
    (hn : (l.map Prod.fst).Nodup) (hm : id ∈ l.map Prod.fst) :
    (dropKey l id).length + 1 = l.length := by
  induction l with
  | nil => simp at hm
  | cons kv l ih =>
    obtain ⟨k, v⟩ := kv
    rw [List.map_cons, List.nodup_cons] at hn
    by_cases hk : k = id
    · subst hk
      have hd : dropKey ((k, v) :: l) k = dropKey l k := by simp [dropKey]
      rw [hd, dropKey_of_not_mem l k hn.1]
      rfl
    · have hd : dropKey ((k, v) :: l) id = (k, v) :: dropKey l id := by simp [dropKey, hk]
      have hm2 : id ∈ l.map Prod.fst := by
        rcases List.mem_cons.1 hm with h | h
        · exact absurd h.symm hk
        · exact h
      rw [hd, List.length_cons, List.length_cons, ih hn.2 hm2]

theorem List_eq_slice (c : memoryStore) (h : c.idle) (seed : Seed) (l : List Ptr)
    (hne : c.s.entries ≠ [])
    (hs : l.Pairwise (fun a b => createdLE a b = true))
    (hp : l.Perm (c.s.entries.map Prod.snd))
    (ha : ∀ a ∈ l, ∀ b ∈ l, createdLE a b = true → createdLE b a = true → a = b) :
    c.List seed = some (History.slice l, c) := by
  rw [List_of_idle c h seed]
  have hperm : (c.s.range seed).Perm c.s.entries := range_perm c.s seed
  cases hr : c.s.range seed with
  | nil =>
    rw [hr] at hperm
    exact absurd (List.Perm.nil_eq hperm).symm hne
  | cons kv rest =>
    rw [foldl_Add_cons]
    have hsorted := sortByCreated_sorted ((kv :: rest).map Prod.snd)
    have hp2 : (sortByCreated ((kv :: rest).map Prod.snd)).Perm l := by
      rw [← hr]
      exact ((sortByCreated_perm _).trans (hperm.map Prod.snd)).trans hp.symm
    have heq : sortByCreated ((kv :: rest).map Prod.snd) = l :=
      List.Perm.eq_of_sorted (fun a b ha1 hb1 => ha a (hp2.subset ha1) b hb1) hsorted hs hp2
    simp only [History.sort, History.elems, List.nil_append]
    rw [heq]

/-- C11: on every store nobody holds and for identifiers `id ≠ id2`, `Add(id, e)`
and `Delete(id)` return and leave what the map holds for `id2` as it was, so
`Get(id2)` returns the same result after either call as before it; and when
`id` is a key of the map, `Size()` after `Delete(id)` is one less than before. -/
theorem add_delete_frame (c : memoryStore) (h : c.idle) (id id2 : String) (hne : id ≠ id2)
    (e : Ptr) :
    ∃ c1 c2 r, c.Get id2 = some (r, c) ∧
      c.Add id e = some c1 ∧ c1.Get id2 = some (r, c1) ∧
      c1.s.entries.lookup id2 = c.s.entries.lookup id2 ∧
      c.Delete id = some c2 ∧ c2.Get id2 = some (r, c2) ∧
      c2.s.entries.lookup id2 = c.s.entries.lookup id2 ∧
      (id ∈ c.s.entries.map Prod.fst →
        ∃ n, c2.Size = some (n, c2) ∧ c.Size = some (n + 1, c)) := by
  have i1 : memoryStore.idle { s := c.s.assign id e, RWMutex := sync.RWMutex.zero } := rfl
  have i2 : memoryStore.idle { s := c.s.delete id, RWMutex := sync.RWMutex.zero } := rfl
  have hb : (id2 == id) = false := by simp [Ne.symm hne]
  have l1 : (c.s.assign id e).entries.lookup id2 = c.s.entries.lookup id2 := by
    simp [GoMap.assign, List.lookup, hb, lookup_dropKey_other _ _ _ (Ne.symm hne)]
  have l2 : (c.s.delete id).entries.lookup id2 = c.s.entries.lookup id2 := by
    simp [GoMap.delete, lookup_dropKey_other _ _ _ (Ne.symm hne)]
  refine ⟨_, _, c.s.index id2, Get_of_idle c h id2, Add_of_idle c h id e, ?_, l1,
    Delete_of_idle c h id, ?_, l2, fun hm => ⟨(c.s.delete id).len, Size_of_idle _ i2, ?_⟩⟩
  · rw [Get_of_idle _ i1]
    simp only [GoMap.index, l1]
  · rw [Get_of_idle _ i2]
    simp only [GoMap.index, l2]
  · rw [Size_of_idle c h]
    have := length_dropKey_of_mem c.s.entries id c.s.nodup hm
    simp only [GoMap.len, GoMap.delete, this]

theorem add_delete_frame_witness :
    scenarioStore.idle ∧ "b" ≠ "a" ∧ "b" ∈ scenarioStore.s.entries.map Prod.fst ∧
    runCalls NewMemoryStore
      [Call.add "a" (some ⟨"a", 1⟩), Call.add "b" (some ⟨"b", 3⟩), Call.add "c" (some ⟨"c", 2⟩)]
        = some scenarioStore ∧
    (∃ c1 c2 r, scenarioStore.Get "a" = some (r, scenarioStore) ∧
      scenarioStore.Add "b" none = some c1 ∧ c1.Get "a" = some (r, c1) ∧
      c1.s.entries.lookup "a" = scenarioStore.s.entries.lookup "a" ∧
      scenarioStore.Delete "b" = some c2 ∧ c2.Get "a" = some (r, c2) ∧
      c2.s.entries.lookup "a" = scenarioStore.s.entries.lookup "a" ∧
      ("b" ∈ scenarioStore.s.entries.map Prod.fst →
        ∃ n, c2.Size = some (n, c2) ∧ scenarioStore.Size = some (n + 1, scenarioStore))) ∧
    (∀ seed : Seed, scenarioStore.List seed
      = some (History.slice [some ⟨"a", 1⟩, some ⟨"c", 2⟩, some ⟨"b", 3⟩], scenarioStore)) ∧
    (∃ c2, scenarioStore.Delete "b" = some c2 ∧ c2.Size = some (2, c2) ∧
      c2.Get "b" = some (none, c2) ∧
      ∀ seed : Seed, c2.List seed = some (History.slice [some ⟨"a", 1⟩, some ⟨"c", 2⟩], c2)) :=
  ⟨rfl, by decide, by decide, rfl, add_delete_frame scenarioStore rfl "b" "a" (by decide) none,
    fun seed => List_eq_slice scenarioStore rfl seed _ (by decide) (by decide) (by decide)
      (by decide),
    ⟨{ s := scenarioStore.s.delete "b", RWMutex := sync.RWMutex.zero }, rfl, rfl, rfl,
      fun seed => List_eq_slice
        { s := scenarioStore.s.delete "b", RWMutex := sync.RWMutex.zero } rfl seed _
        (by decide) (by decide) (by decide) (by decide)⟩⟩

/-! ## Which lock a call takes -/

theorem Get_of_noWriter (c : memoryStore) (h : c.RWMutex.writer = false) (id : String) :
    c.Get id = some (c.s.index id, c) := by
  obtain ⟨s, ⟨w, r⟩⟩ := c
  simp only at h
  subst h
  simp [memoryStore.Get, sync.RWMutex.RLock, sync.RWMutex.RUnlock]

theorem Size_of_noWriter (c : memoryStore) (h : c.RWMutex.writer = false) :
    c.Size = some (c.s.len, c) := by
  obtain ⟨s, ⟨w, r⟩⟩ := c
  simp only at h
  subst h
  simp [memoryStore.Size, sync.RWMutex.RLock, sync.RWMutex.RUnlock]

theorem First_of_noWriter (c : memoryStore) (h : c.RWMutex.writer = false) (seed : Seed)
    (filter : StoreFilter) :
    c.First seed filter = some (firstMatch filter (c.s.range seed), c) := by
  obtain ⟨s, ⟨w, r⟩⟩ := c
  simp only at h
  subst h
  simp [memoryStore.First, sync.RWMutex.RLock, sync.RWMutex.RUnlock]

theorem List_of_noWriter (c : memoryStore) (h : c.RWMutex.writer = false) (seed : Seed) :
    c.List seed
      = some (((c.s.range seed).foldl (fun h kv => h.Add kv.2) History.nil).sort, c) := by
  obtain ⟨s, ⟨w, r⟩⟩ := c
  simp only at h
  subst h
  simp [memoryStore.List, sync.RWMutex.RLock, sync.RWMutex.RUnlock]

theorem ApplyAll_of_noWriter {σ : Type} (c : memoryStore) (h : c.RWMutex.writer = false)
    (seed : Seed) (sched : Schedule) (last : Seed) (apply : StoreReducer σ) (w : σ) :
    c.ApplyAll seed sched last apply w
      = ((spawnAll apply sched ((c.s.range seed).map Prod.snd)
          { wg := 0, started := [], world := w }).Wait apply last).map
            (fun f => (f.world, c)) := by
  obtain ⟨s, ⟨wr, r⟩⟩ := c
  simp only at h
  subst h
  unfold memoryStore.ApplyAll
  dsimp only
  cases (spawnAll apply sched ((s.range seed).map Prod.snd)
    { wg := 0, started := [], world := w }).Wait apply last <;>
    simp [sync.RWMutex.RLock, sync.RWMutex.RUnlock]

theorem ApplyAll_returns {σ : Type} (c : memoryStore) (h : c.RWMutex.writer = false)
    (seed : Seed) (sched : Schedule) (last : Seed) (apply : StoreReducer σ) (w : σ) :
    ∃ v, c.ApplyAll seed sched last apply w = some (v, c) := by
  have h0 : Fanout.Inv apply w [] { wg := 0, started := [], world := w } :=
    ⟨rfl, [], rfl, List.Perm.refl _⟩
  have h1 := Inv_spawnAll apply w [] sched ((c.s.range seed).map Prod.snd) _ h0
  obtain ⟨g, args, hw, -, -, -⟩ := Inv_Wait apply w _ last _ h1
  exact ⟨g.world, by rw [ApplyAll_of_noWriter c h, hw]; rfl⟩

theorem write_blocked (c : memoryStore) (h : ¬ c.idle) (id : String) (cont : Ptr) :
    c.Add id cont = none ∧ c.Delete id = none := by
  obtain ⟨s, ⟨w, r⟩⟩ := c
  have hl : sync.RWMutex.Lock ⟨w, r⟩ = none := by
    unfold sync.RWMutex.Lock
    rw [if_neg]
    rintro ⟨hw, hr⟩
    simp only at hw hr
    subst hw; subst hr
    exact h rfl
  simp [memoryStore.Add, memoryStore.Delete, hl]

theorem read_blocked {σ : Type} (c : memoryStore) (h : c.RWMutex.writer = true) (id : String)
    (seed : Seed) (filter : StoreFilter) (sched : Schedule) (last : Seed)
    (apply : StoreReducer σ) (w : σ) :
    c.Get id = none ∧ c.Size = none ∧ c.List seed = none ∧ c.First seed filter = none ∧
      c.ApplyAll seed sched last apply w = none := by
  obtain ⟨s, ⟨wr, r⟩⟩ := c
  simp only at h
  subst h
  simp [memoryStore.Get, memoryStore.Size, memoryStore.List, memoryStore.First,
    memoryStore.ApplyAll, sync.RWMutex.RLock]

/-- C14: on every store no writer holds, `Get`, `Size`, `List`, `First` and
`ApplyAll` return and leave the store as it was before the call: the same
identifiers, the same pointer under each identifier, and the same lock state. -/
theorem reads_leave_map {σ : Type} (c : memoryStore) (h : c.RWMutex.writer = false)
    (id : String) (seed : Seed) (filter : StoreFilter) (sched : Schedule) (last : Seed)
    (apply : StoreReducer σ) (w : σ) :
    (∃ r c1, c.Get id = some (r, c1) ∧ c1.s.entries = c.s.entries ∧ c1 = c) ∧
    (∃ r c1, c.Size = some (r, c1) ∧ c1.s.entries = c.s.entries ∧ c1 = c) ∧
    (∃ r c1, c.List seed = some (r, c1) ∧ c1.s.entries = c.s.entries ∧ c1 = c) ∧
    (∃ r c1, c.First seed filter = some (r, c1) ∧ c1.s.entries = c.s.entries ∧ c1 = c) ∧
    (∃ r c1, c.ApplyAll seed sched last apply w = some (r, c1) ∧
      c1.s.entries = c.s.entries ∧ c1 = c) := by
  refine ⟨⟨_, c, Get_of_noWriter c h id, rfl, rfl⟩, ⟨_, c, Size_of_noWriter c h, rfl, rfl⟩,
    ⟨_, c, List_of_noWriter c h seed, rfl, rfl⟩,
    ⟨_, c, First_of_noWriter c h seed filter, rfl, rfl⟩, ?_⟩
  obtain ⟨v, hv⟩ := ApplyAll_returns c h seed sched last apply w
  exact ⟨v, c, hv, rfl, rfl⟩

theorem reads_leave_map_witness :
    threeStore.RWMutex.writer = false ∧
    (∃ r c1, threeStore.Get "x" = some (r, c1) ∧ c1.s.entries = threeStore.s.entries ∧
      c1 = threeStore) ∧
    (∃ r c1, threeStore.Size = some (r, c1) ∧ c1.s.entries = threeStore.s.entries ∧
      c1 = threeStore) ∧
    (∃ r c1, threeStore.List [1] = some (r, c1) ∧ c1.s.entries = threeStore.s.entries ∧
      c1 = threeStore) ∧
    (∃ r c1, threeStore.First [1] (fun p => p == some ⟨"y", 1⟩) = some (r, c1) ∧
      c1.s.entries = threeStore.s.entries ∧ c1 = threeStore) ∧
    (∃ r c1, threeStore.ApplyAll [1] [[0]] [2] (fun _ k => k + 1) 0 = some (r, c1) ∧
      c1.s.entries = threeStore.s.entries ∧ c1 = threeStore) :=
  ⟨rfl, reads_leave_map threeStore rfl "x" [1] (fun p => p == some ⟨"y", 1⟩) [[0]] [2]
    (fun _ k => k + 1) 0⟩

/-- C15: on every store no writer holds and for every order of the `range`
loop, `List()` and `Size()` return and the length of the result of `List()`
is the result of `Size()`, the number of map entries. -/
theorem list_len_eq_size (c : memoryStore) (h : c.RWMutex.writer = false) (seed : Seed) :
    ∃ hist n, c.List seed = some (hist, c) ∧ c.Size = some (n, c) ∧ hist.len = n ∧
      n = (c.s.entries.map Prod.fst).length := by
  refine ⟨_, _, List_of_noWriter c h seed, Size_of_noWriter c h, ?_, ?_⟩
  · unfold History.len
    rw [List_elems, (sortByCreated_perm _).length_eq, List.length_map,
      (range_perm c.s seed).length_eq]
    rfl
  · simp [GoMap.len]

theorem list_len_eq_size_witness :
    sharedStore.RWMutex.writer = false ∧ nilStore.RWMutex.writer = false ∧
    (∃ hist n, sharedStore.List [1] = some (hist, sharedStore) ∧
      sharedStore.Size = some (n, sharedStore) ∧ hist.len = n ∧
      n = (sharedStore.s.entries.map Prod.fst).length) ∧
    (∃ hist n, nilStore.List [1] = some (hist, nilStore) ∧
      nilStore.Size = some (n, nilStore) ∧ hist.len = n ∧
      n = (nilStore.s.entries.map Prod.fst).length) ∧
    (sharedStore.List [1]).map (fun r => r.1.len) = some 2 ∧
    (nilStore.List [1]).map (fun r => r.1) = some (History.slice [none, some ⟨"m", 5⟩]) :=
  ⟨rfl, rfl, list_len_eq_size sharedStore rfl [1], list_len_eq_size nilStore rfl [1],
    by decide, by decide⟩

/-- C16: every operation started on a store nobody holds returns a store
nobody holds, whatever the filter accepts.  `Add` and `Delete` return exactly
when the mutex is started free: they take the write lock.  `Get`, `Size`,
`List`, `First` and `ApplyAll` return exactly when no writer holds the mutex,
under any number of readers, and leave that number as it was: they take only
the read lock. -/
theorem lock_balance {σ : Type} (c : memoryStore) (h : c.idle) (id : String) (cont : Ptr)
    (seed : Seed) (filter : StoreFilter) (sched : Schedule) (last : Seed)
    (apply : StoreReducer σ) (w : σ) :
    ((∃ c1, c.Add id cont = some c1 ∧ c1.idle) ∧
      (∃ c1, c.Delete id = some c1 ∧ c1.idle) ∧
      (∃ r c1, c.Get id = some (r, c1) ∧ c1.idle) ∧
      (∃ r c1, c.List seed = some (r, c1) ∧ c1.idle) ∧
      (∃ r c1, c.Size = some (r, c1) ∧ c1.idle) ∧
      (∃ r c1, c.First seed filter = some (r, c1) ∧ c1.idle) ∧
      (∃ r c1, c.ApplyAll seed sched last apply w = some (r, c1) ∧ c1.idle)) ∧
    (∀ mu : sync.RWMutex,
      (({ c with RWMutex := mu }.Add id cont).isSome ↔ mu = sync.RWMutex.zero) ∧
      (({ c with RWMutex := mu }.Delete id).isSome ↔ mu = sync.RWMutex.zero)) ∧
    (∀ mu : sync.RWMutex,
      (mu.writer = true →
        { c with RWMutex := mu }.Get id = none ∧
        { c with RWMutex := mu }.List seed = none ∧
        { c with RWMutex := mu }.Size = none ∧
        { c with RWMutex := mu }.First seed filter = none ∧
        { c with RWMutex := mu }.ApplyAll seed sched last apply w = none) ∧
      (mu.writer = false →
        (∃ r c1, { c with RWMutex := mu }.Get id = some (r, c1) ∧ c1.RWMutex = mu) ∧
        (∃ r c1, { c with RWMutex := mu }.List seed = some (r, c1) ∧ c1.RWMutex = mu) ∧
        (∃ r c1, { c with RWMutex := mu }.Size = some (r, c1) ∧ c1.RWMutex = mu) ∧
        (∃ r c1, { c with RWMutex := mu }.First seed filter = some (r, c1) ∧
          c1.RWMutex = mu) ∧
        (∃ r c1, { c with RWMutex := mu }.ApplyAll seed sched last apply w = some (r, c1) ∧
          c1.RWMutex = mu))) := by
  have hw : c.RWMutex.writer = false := by rw [h]; rfl
  refine ⟨⟨⟨_, Add_of_idle c h id cont, rfl⟩, ⟨_, Delete_of_idle c h id, rfl⟩,
    ⟨_, c, Get_of_idle c h id, h⟩, ⟨_, c, List_of_idle c h seed, h⟩,
    ⟨_, c, Size_of_idle c h, h⟩, ⟨_, c, First_of_idle c h seed filter, h⟩, ?_⟩, ?_, ?_⟩
  · obtain ⟨v, hv⟩ := ApplyAll_returns c hw seed sched last apply w
    exact ⟨v, c, hv, h⟩
  · intro mu
    by_cases hmu : mu = sync.RWMutex.zero
    · have hi : memoryStore.idle { c with RWMutex := mu } := hmu
      rw [Add_of_idle _ hi, Delete_of_idle _ hi]
      exact ⟨⟨fun _ => hmu, fun _ => rfl⟩, ⟨fun _ => hmu, fun _ => rfl⟩⟩
    · have hi : ¬ memoryStore.idle { c with RWMutex := mu } := hmu
      obtain ⟨h1, h2⟩ := write_blocked _ hi id cont
      simp [h1, h2, hmu]
  · intro mu
    refine ⟨fun hmu => ?_, fun hmu => ?_⟩
    · have hb : ({ s := c.s, RWMutex := mu } : memoryStore).RWMutex.writer = true := hmu
      obtain ⟨h1, h2, h3, h4, h5⟩ := read_blocked _ hb id seed filter sched last apply w
      exact ⟨h1, h3, h2, h4, h5⟩
    · have hb : ({ s := c.s, RWMutex := mu } : memoryStore).RWMutex.writer = false := hmu
      obtain ⟨v, hv⟩ := ApplyAll_returns _ hb seed sched last apply w
      exact ⟨⟨_, _, Get_of_noWriter _ hb id, rfl⟩, ⟨_, _, List_of_noWriter _ hb seed, rfl⟩,
        ⟨_, _, Size_of_noWriter _ hb, rfl⟩, ⟨_, _, First_of_noWriter _ hb seed filter, rfl⟩,
        ⟨v, _, hv, rfl⟩⟩

theorem lock_balance_witness :
    threeStore.idle ∧
    (threeStore.First [1] (fun p => p == some ⟨"y", 1⟩)).map (fun r => (r.1, r.2.RWMutex))
      = some (some ⟨"y", 1⟩, sync.RWMutex.zero) ∧
    (threeStore.First [1] (fun _ => false)).map (fun r => (r.1, r.2.RWMutex))
      = some (none, sync.RWMutex.zero) ∧
    (readStore.Get "x").map (fun r => (r.1, r.2.RWMutex))
      = some (some ⟨"x", 3⟩, { writer := false, readers := 2 }) ∧
    (readStore.Add "x" none).isSome = false ∧
    (((∃ c1, threeStore.Add "x" none = some c1 ∧ c1.idle) ∧
      (∃ c1, threeStore.Delete "x" = some c1 ∧ c1.idle) ∧
      (∃ r c1, threeStore.Get "x" = some (r, c1) ∧ c1.idle) ∧
      (∃ r c1, threeStore.List [1] = some (r, c1) ∧ c1.idle) ∧
      (∃ r c1, threeStore.Size = some (r, c1) ∧ c1.idle) ∧
      (∃ r c1, threeStore.First [1] (fun _ => false) = some (r, c1) ∧ c1.idle) ∧
      (∃ r c1, threeStore.ApplyAll [1] [[0]] [2] (fun _ k => k + 1) 0 = some (r, c1) ∧ c1.idle)) ∧
    (∀ mu : sync.RWMutex,
      (({ threeStore with RWMutex := mu }.Add "x" none).isSome ↔ mu = sync.RWMutex.zero) ∧
      (({ threeStore with RWMutex := mu }.Delete "x").isSome ↔ mu = sync.RWMutex.zero)) ∧
    (∀ mu : sync.RWMutex,
      (mu.writer = true →
        { threeStore with RWMutex := mu }.Get "x" = none ∧
        { threeStore with RWMutex := mu }.List [1] = none ∧
        { threeStore with RWMutex := mu }.Size = none ∧
        { threeStore with RWMutex := mu }.First [1] (fun _ => false) = none ∧
        { threeStore with RWMutex := mu }.ApplyAll [1] [[0]] [2] (fun _ k => k + 1) 0 = none) ∧
      (mu.writer = false →
        (∃ r c1, { threeStore with RWMutex := mu }.Get "x" = some (r, c1) ∧ c1.RWMutex = mu) ∧
        (∃ r c1, { threeStore with RWMutex := mu }.List [1] = some (r, c1) ∧ c1.RWMutex = mu) ∧
        (∃ r c1, { threeStore with RWMutex := mu }.Size = some (r, c1) ∧ c1.RWMutex = mu) ∧
        (∃ r c1, { threeStore with RWMutex := mu }.First [1] (fun _ => false) = some (r, c1) ∧
          c1.RWMutex = mu) ∧
        (∃ r c1, { threeStore with RWMutex := mu }.ApplyAll [1] [[0]] [2] (fun _ k => k + 1) 0 = some (r, c1) ∧
          c1.RWMutex = mu)))) :=
  ⟨rfl, by decide, by decide, by decide, by decide,
    lock_balance threeStore rfl "x" none [1] (fun _ => false) [[0]] [2] (fun _ k => k + 1) 0⟩

/-! ## The order of the steps of `List` -/

theorem runListSteps_adds (l : List (String × Ptr)) (rest : List ListStep) (st : ListState) :
    runListSteps (l.map (fun kv => ListStep.Add kv.2) ++ rest) st
      = (runListSteps rest
          { st with containers := l.foldl (fun h kv => h.Add kv.2) st.containers }).map
          (fun r => (l.map (fun kv => (ListStep.Add kv.2, st.RWMutex)) ++ r.1, r.2)) := by
  induction l generalizing st with
  | nil =>
    simp only [List.map_nil, List.nil_append, List.foldl_nil]
    cases runListSteps rest st <;> rfl
  | cons kv l ih =>
    simp only [List.map_cons, List.cons_append, runListSteps, ListStep.exec, Option.some_bind,
      List.foldl_cons, List.append_eq]
    rw [ih]
    cases runListSteps rest
      { RWMutex := st.RWMutex,
        containers := l.foldl (fun h kv => h.Add kv.2) (st.containers.Add kv.2) } <;> rfl

/-- C13: on every store nobody holds, the steps of `List()` are, in this order,
the read lock, one copy per map entry, the release of the read lock, the sort;
their run returns what `List()` returns; every copy starts with the read lock
held, the release comes after the last copy, and the sort starts with the
mutex held by nobody. -/
theorem list_unlocks_before_sort (c : memoryStore) (h : c.idle) (seed : Seed) :
    ∃ trace final,
      runListSteps (ListSteps c seed) { RWMutex := c.RWMutex, containers := History.nil }
        = some (trace, final) ∧
      c.List seed = some (final.containers, { c with RWMutex := final.RWMutex }) ∧
      trace = (ListStep.RLock, sync.RWMutex.zero) ::
        ((c.s.range seed).map
            (fun kv => (ListStep.Add kv.2, ({ writer := false, readers := 1 } : sync.RWMutex))) ++
          [(ListStep.RUnlock, { writer := false, readers := 1 }),
           (ListStep.sort, sync.RWMutex.zero)]) ∧
      (∀ cont mu, (ListStep.Add cont, mu) ∈ trace → mu.readers = 1) ∧
      (∀ mu, (ListStep.sort, mu) ∈ trace → mu = sync.RWMutex.zero) := by
  have hrun : runListSteps (ListSteps c seed)
      { RWMutex := c.RWMutex, containers := History.nil }
      = some ((ListStep.RLock, sync.RWMutex.zero) ::
        ((c.s.range seed).map
            (fun kv => (ListStep.Add kv.2, ({ writer := false, readers := 1 } : sync.RWMutex))) ++
          [(ListStep.RUnlock, { writer := false, readers := 1 }),
           (ListStep.sort, sync.RWMutex.zero)]),
        { RWMutex := sync.RWMutex.zero,
          containers := ((c.s.range seed).foldl (fun h kv => h.Add kv.2) History.nil).sort }) := by
    have hz : c.RWMutex = sync.RWMutex.zero := h
    rw [hz]
    unfold ListSteps
    rw [runListSteps]
    simp only [ListStep.exec, sync.RWMutex.RLock, sync.RWMutex.zero, if_true, Option.map_some',
      Option.some_bind]
    rw [runListSteps_adds]
    rfl
  refine ⟨_, _, hrun, ?_, rfl, ?_, ?_⟩
  · rw [List_of_idle c h seed]
    exact congrArg some (Prod.ext rfl (idle_eq c h))
  · intro cont mu hm
    simp only [List.mem_cons, Prod.mk.injEq, List.mem_append, List.mem_map, List.mem_singleton,
      reduceCtorEq, false_and, and_false, or_false, false_or, List.not_mem_nil] at hm
    obtain ⟨kv, -, -, hmu⟩ := hm
    rw [← hmu]
  · intro mu hm
    simp only [List.mem_cons, Prod.mk.injEq, List.mem_append, List.mem_map, List.mem_singleton,
      reduceCtorEq, false_and, and_false, or_false, false_or, List.not_mem_nil, true_and,
      exists_false] at hm
    exact hm

theorem list_unlocks_before_sort_witness :
    threeStore.idle ∧
    runListSteps (ListSteps threeStore [1]) { RWMutex := threeStore.RWMutex, containers := History.nil }
      = some ([(ListStep.RLock, ⟨false, 0⟩), (ListStep.Add (some ⟨"y", 1⟩), ⟨false, 1⟩),
          (ListStep.Add (some ⟨"z", 2⟩), ⟨false, 1⟩), (ListStep.Add (some ⟨"x", 3⟩), ⟨false, 1⟩),
          (ListStep.RUnlock, ⟨false, 1⟩), (ListStep.sort, ⟨false, 0⟩)],
        { RWMutex := ⟨false, 0⟩,
          containers := History.slice [some ⟨"y", 1⟩, some ⟨"z", 2⟩, some ⟨"x", 3⟩] }) ∧
    ∃ trace final,
      runListSteps (ListSteps threeStore [1])
          { RWMutex := threeStore.RWMutex, containers := History.nil }
        = some (trace, final) ∧
      threeStore.List [1]
        = some (final.containers, { threeStore with RWMutex := final.RWMutex }) ∧
      trace = (ListStep.RLock, sync.RWMutex.zero) ::
        ((threeStore.s.range [1]).map
            (fun kv => (ListStep.Add kv.2, ({ writer := false, readers := 1 } : sync.RWMutex))) ++
          [(ListStep.RUnlock, { writer := false, readers := 1 }),
           (ListStep.sort, sync.RWMutex.zero)]) ∧
      (∀ cont mu, (ListStep.Add cont, mu) ∈ trace → mu.readers = 1) ∧
      (∀ mu, (ListStep.sort, mu) ∈ trace → mu = sync.RWMutex.zero) :=
  ⟨rfl, rfl, list_unlocks_before_sort threeStore rfl [1]⟩

/-! ## Goroutines that call `Add`, `Delete` and `Get` on disjoint identifiers -/

theorem lookupFn_access (op : Op) (m : GoMap) :
    (op.access m).lookupFn = op.effect m.lookupFn := by
  funext k
  cases op with
  | add id cont =>
    by_cases hk : k = id
    · subst hk
      simp [Op.access, Op.effect, GoMap.lookupFn, GoMap.assign, List.lookup]
    · have hb : (k == id) = false := by simp [hk]
      simp [Op.access, Op.effect, GoMap.lookupFn, GoMap.assign, List.lookup, hb, hk,
        lookup_dropKey_other _ _ _ hk]
  | delete id =>
    by_cases hk : k = id
    · subst hk
      simp [Op.access, Op.effect, GoMap.lookupFn, GoMap.delete, lookup_dropKey_self]
    · simp [Op.access, Op.effect, GoMap.lookupFn, GoMap.delete, hk,
        lookup_dropKey_other _ _ _ hk]
  | get id => rfl

theorem step_cases (g g1 : Goroutine) (c c1 : memoryStore) (h : g.step c = some (g1, c1)) :
    ∃ op, g.calls[g.next]? = some op ∧
      ((g.phase = Phase.start ∧ g1 = { g with phase := Phase.locked } ∧ c1.s = c.s ∧
          (if op.takesWriteLock then c.RWMutex.Lock else c.RWMutex.RLock) = some c1.RWMutex) ∨
       (g.phase = Phase.locked ∧ g1 = { g with phase := Phase.accessed } ∧
          c1 = { c with s := op.access c.s }) ∨
       (g.phase = Phase.accessed ∧ g1 = { g with next := g.next + 1, phase := Phase.start } ∧
          c1.s = c.s ∧
          (if op.takesWriteLock then c.RWMutex.Unlock else c.RWMutex.RUnlock) = some c1.RWMutex)) := by
  unfold Goroutine.step at h
  cases hop : g.calls[g.next]? with
  | none => rw [hop] at h; simp at h
  | some op =>
    rw [hop] at h
    refine ⟨op, rfl, ?_⟩
    cases hph : g.phase with
    | start =>
      rw [hph] at h
      simp only [Option.map_eq_some'] at h
      obtain ⟨mu, hmu, heq⟩ := h
      simp only [Prod.mk.injEq] at heq
      obtain ⟨rfl, rfl⟩ := heq
      exact Or.inl ⟨rfl, rfl, rfl, hmu⟩
    | locked =>
      rw [hph] at h
      simp only [Option.some.injEq, Prod.mk.injEq] at h
      obtain ⟨rfl, rfl⟩ := h
      exact Or.inr (Or.inl ⟨rfl, rfl, rfl⟩)
    | accessed =>
      rw [hph] at h
      simp only [Option.map_eq_some'] at h
      obtain ⟨mu, hmu, heq⟩ := h
      simp only [Prod.mk.injEq] at heq
      obtain ⟨rfl, rfl⟩ := heq
      exact Or.inr (Or.inr ⟨rfl, rfl, rfl, hmu⟩)

theorem step_calls (g g1 : Goroutine) (c c1 : memoryStore) (h : g.step c = some (g1, c1)) :
    g1.calls = g.calls := by
  obtain ⟨op, -, h1 | h1 | h1⟩ := step_cases g g1 c c1 h
  · rw [h1.2.1]
  · rw [h1.2.1]
  · rw [h1.2.1]

theorem step_wf (g g1 : Goroutine) (c c1 : memoryStore) (h : g.step c = some (g1, c1)) :
    g1.wf := by
  obtain ⟨op, hop, h1 | h1 | h1⟩ := step_cases g g1 c c1 h
  · rw [h1.2.1]; exact Or.inr ((List.getElem?_eq_some.1 hop).1)
  · rw [h1.2.1]; exact Or.inr ((List.getElem?_eq_some.1 hop).1)
  · rw [h1.2.1]; exact Or.inl rfl

theorem step_remaining (g g1 : Goroutine) (c c1 : memoryStore)
    (h : g.step c = some (g1, c1)) : g1.remaining + 1 = g.remaining := by
  obtain ⟨op, hop, h1 | h1 | h1⟩ := step_cases g g1 c c1 h
  all_goals
    have hlt : g.next < g.calls.length := (List.getElem?_eq_some.1 hop).1
    rw [h1.2.1]
    simp only [Goroutine.remaining, h1.1]
    omega

theorem effect_comm (op o : Op) (f : Lookup) (h : op.id ≠ o.id) :
    op.effect (o.effect f) = o.effect (op.effect f) := by
  cases op <;> cases o <;> simp only [Op.effect] <;> simp only [Op.id] at h <;>
    exact (Function.update_comm h _ _ f).symm

theorem effect_comm_effects (op : Op) (l : List Op) (f : Lookup) (h : ∀ o ∈ l, op.id ≠ o.id) :
    op.effect (effects l f) = effects l (op.effect f) := by
  induction l generalizing f with
  | nil => rfl
  | cons o l ih =>
    simp only [effects, List.foldl_cons] at ih ⊢
    rw [ih _ (fun x hx => h x (List.mem_cons_of_mem _ hx)),
      effect_comm op o f (h o (List.mem_cons_self _ _))]

theorem performed_subset (g : Goroutine) : ∀ o ∈ g.performed, o ∈ g.calls :=
  fun _ ho => List.mem_of_mem_take ho

theorem effect_comm_tally (op : Op) (gs : List Goroutine) (f : Lookup)
    (h : ∀ g ∈ gs, ∀ o ∈ g.calls, op.id ≠ o.id) :
    op.effect (tally gs f) = tally gs (op.effect f) := by
  induction gs generalizing f with
  | nil => rfl
  | cons g gs ih =>
    simp only [tally, List.foldl_cons] at ih ⊢
    rw [ih _ (fun x hx => h x (List.mem_cons_of_mem _ hx)),
      effect_comm_effects op g.performed f
        (fun o ho => h g (List.mem_cons_self _ _) o (performed_subset g o ho))]

theorem tally_append (pre post : List Goroutine) (f : Lookup) :
    tally (pre ++ post) f = tally post (tally pre f) := by
  simp [tally, List.foldl_append]

theorem tally_cons (g : Goroutine) (gs : List Goroutine) (f : Lookup) :
    tally (g :: gs) f = tally gs (effects g.performed f) := rfl

theorem step_effect (g g1 : Goroutine) (c c1 : memoryStore) (h : g.step c = some (g1, c1)) :
    (c1.s.lookupFn = c.s.lookupFn ∧ g1.performed = g.performed) ∨
    (∃ op ∈ g.calls, c1.s.lookupFn = op.effect c.s.lookupFn ∧
      g1.performed = g.performed ++ [op]) := by
  obtain ⟨op, hop, h1 | h1 | h1⟩ := step_cases g g1 c c1 h
  · left
    obtain ⟨hph, hg, hs, -⟩ := h1
    refine ⟨by rw [hs], ?_⟩
    rw [hg]
    simp [Goroutine.performed, hph]
  · right
    obtain ⟨hph, hg, hc⟩ := h1
    obtain ⟨hlt, hget⟩ := List.getElem?_eq_some.1 hop
    refine ⟨op, ?_, ?_, ?_⟩
    · rw [← hget]; exact List.getElem_mem _
    · rw [hc]; exact lookupFn_access op c.s
    · rw [hg]
      simp only [Goroutine.performed, hph, if_true, reduceCtorEq, if_false, Nat.add_zero]
      rw [List.take_succ, hop]
      rfl
  · left
    obtain ⟨hph, hg, hs, -⟩ := h1
    refine ⟨by rw [hs], ?_⟩
    rw [hg]
    simp [Goroutine.performed, hph]

theorem stepAt_split (gs gs1 : List Goroutine) (i : Nat) (c c1 : memoryStore)
    (h : stepAt gs i c = some (gs1, c1)) :
    ∃ pre g post g1, gs = pre ++ g :: post ∧ gs1 = pre ++ g1 :: post ∧
      g.step c = some (g1, c1) := by
  induction gs generalizing i gs1 with
  | nil => simp [stepAt] at h
  | cons g gs ih =>
    cases i with
    | zero =>
      simp only [stepAt, Option.map_eq_some'] at h
      obtain ⟨⟨g1, c2⟩, hstep, heq⟩ := h
      simp only [Prod.mk.injEq] at heq
      obtain ⟨rfl, rfl⟩ := heq
      exact ⟨[], g, gs, g1, rfl, rfl, hstep⟩
    | succ n =>
      simp only [stepAt, Option.map_eq_some'] at h
      obtain ⟨⟨gs2, c2⟩, hstep, heq⟩ := h
      simp only [Prod.mk.injEq] at heq
      obtain ⟨rfl, rfl⟩ := heq
      obtain ⟨pre, g0, post, g1, h1, h2, h3⟩ := ih gs2 n hstep
      exact ⟨g :: pre, g0, post, g1, by rw [h1]; rfl, by rw [h2]; rfl, h3⟩

theorem stepAt_of_split (pre post : List Goroutine) (g g1 : Goroutine) (c c1 : memoryStore)
    (h : g.step c = some (g1, c1)) :
    stepAt (pre ++ g :: post) pre.length c = some (pre ++ g1 :: post, c1) := by
  induction pre with
  | nil => simp [stepAt, h]
  | cons x pre ih => simp [stepAt, ih]

theorem stepAt_tally (gs gs1 : List Goroutine) (i : Nat) (c c1 : memoryStore)
    (h : stepAt gs i c = some (gs1, c1))
    (hd : (gs.map Goroutine.calls).Pairwise disjointIds)
    (ht : c.s.lookupFn = tally gs (fun _ => none)) :
    gs1.map Goroutine.calls = gs.map Goroutine.calls ∧
      c1.s.lookupFn = tally gs1 (fun _ => none) := by
  obtain ⟨pre, g, post, g1, rfl, rfl, hstep⟩ := stepAt_split gs gs1 i c c1 h
  refine ⟨by simp [step_calls g g1 c c1 hstep], ?_⟩
  rw [tally_append, tally_cons] at ht ⊢
  rcases step_effect g g1 c c1 hstep with ⟨hs, hp⟩ | ⟨op, hop, hs, hp⟩
  · rw [hs, hp, ht]
  · rw [hs, hp, ht]
    have hpost : ∀ g2 ∈ post, ∀ o ∈ g2.calls, op.id ≠ o.id := by
      intro g2 hg2 o ho
      rw [List.map_append, List.map_cons, List.pairwise_append] at hd
      have := (List.pairwise_cons.1 hd.2.1).1 g2.calls (List.mem_map.2 ⟨g2, hg2, rfl⟩)
      exact this op hop o ho
    rw [effect_comm_tally op post _ hpost]
    simp [effects, List.foldl_append]

theorem holds_start (g : Goroutine) (h : g.phase = Phase.start) :
    g.holdsW = false ∧ g.holdsR = false := by
  unfold Goroutine.holdsW Goroutine.holdsR
  cases g.calls[g.next]? <;> simp [h]

theorem holds_inside (g : Goroutine) (op : Op) (hop : g.calls[g.next]? = some op)
    (h : g.phase ≠ Phase.start) : g.holdsW = op.takesWriteLock ∧ g.holdsR = !op.takesWriteLock := by
  unfold Goroutine.holdsW Goroutine.holdsR
  rw [hop]
  simp [h]

theorem step_locks (g g1 : Goroutine) (c c1 : memoryStore) (h : g.step c = some (g1, c1)) :
    ((if g1.holdsW then 1 else 0) + (if c.RWMutex.writer then 1 else 0)
      = (if g.holdsW then 1 else 0) + (if c1.RWMutex.writer then 1 else 0)) ∧
    ((if g1.holdsR then 1 else 0) + c.RWMutex.readers
      = (if g.holdsR then 1 else 0) + c1.RWMutex.readers) ∧
    ((c.RWMutex.writer = true → c.RWMutex.readers = 0) →
      (c1.RWMutex.writer = true → c1.RWMutex.readers = 0)) := by
  obtain ⟨op, hop, h1 | h1 | h1⟩ := step_cases g g1 c c1 h
  · obtain ⟨hph, hg, -, hmu⟩ := h1
    obtain ⟨hW, hR⟩ := holds_start g hph
    have hop1 : g1.calls[g1.next]? = some op := by rw [hg]; exact hop
    have hph1 : g1.phase ≠ Phase.start := by rw [hg]; simp
    obtain ⟨hW1, hR1⟩ := holds_inside g1 op hop1 hph1
    obtain ⟨s, ⟨w, r⟩⟩ := c
    obtain ⟨s1, ⟨w1, r1⟩⟩ := c1
    rw [hW, hR, hW1, hR1]
    cases hw : op.takesWriteLock
    · simp only [hw, Bool.false_eq_true, if_false, sync.RWMutex.RLock] at hmu
      split at hmu
      · rename_i hwf
        simp only [Option.some.injEq, sync.RWMutex.mk.injEq] at hmu
        obtain ⟨rfl, rfl⟩ := hmu
        subst hwf
        simp
        omega
      · simp at hmu
    · simp only [hw, if_true, sync.RWMutex.Lock] at hmu
      split at hmu
      · rename_i hwf
        simp only [Option.some.injEq, sync.RWMutex.mk.injEq] at hmu
        obtain ⟨rfl, rfl⟩ := hmu
        obtain ⟨rfl, rfl⟩ := hwf
        simp
      · simp at hmu
  · obtain ⟨hph, hg, hc⟩ := h1
    have hop1 : g1.calls[g1.next]? = some op := by rw [hg]; exact hop
    have hph0 : g.phase ≠ Phase.start := by rw [hph]; simp
    have hph1 : g1.phase ≠ Phase.start := by rw [hg]; simp
    obtain ⟨hW, hR⟩ := holds_inside g op hop hph0
    obtain ⟨hW1, hR1⟩ := holds_inside g1 op hop1 hph1
    rw [hW, hR, hW1, hR1, hc]
    exact ⟨rfl, rfl, fun x => x⟩
  · obtain ⟨hph, hg, -, hmu⟩ := h1
    have hph0 : g.phase ≠ Phase.start := by rw [hph]; simp
    obtain ⟨hW, hR⟩ := holds_inside g op hop hph0
    obtain ⟨hW1, hR1⟩ := holds_start g1 (by rw [hg])
    obtain ⟨s, ⟨w, r⟩⟩ := c
    obtain ⟨s1, ⟨w1, r1⟩⟩ := c1
    rw [hW, hR, hW1, hR1]
    cases hw : op.takesWriteLock
    · simp only [hw, Bool.false_eq_true, if_false, sync.RWMutex.RUnlock] at hmu
      split at hmu
      · rename_i hpos
        simp only [Option.some.injEq, sync.RWMutex.mk.injEq] at hmu
        obtain ⟨rfl, rfl⟩ := hmu
        simp
        refine ⟨by omega, fun h0 hw1 => ?_⟩
        have := h0 hw1
        omega
      · simp at hmu
    · simp only [hw, if_true, sync.RWMutex.Unlock] at hmu
      split at hmu
      · rename_i hwt
        simp only [Option.some.injEq, sync.RWMutex.mk.injEq] at hmu
        obtain ⟨rfl, rfl⟩ := hmu
        subst hwt
        simp
      · simp at hmu

theorem stepAt_safe (gs gs1 : List Goroutine) (i : Nat) (c c1 : memoryStore)
    (h : stepAt gs i c = some (gs1, c1)) (hs : Safe gs c) : Safe gs1 c1 := by
  obtain ⟨pre, g, post, g1, rfl, rfl, hstep⟩ := stepAt_split gs gs1 i c c1 h
  obtain ⟨hwf, hW, hR, hx⟩ := hs
  obtain ⟨kW, kR, kx⟩ := step_locks g g1 c c1 hstep
  refine ⟨fun x hx1 => ?_, ?_, ?_, kx hx⟩
  · rcases List.mem_append.1 hx1 with hp | hp
    · exact hwf x (List.mem_append_left _ hp)
    · rcases List.mem_cons.1 hp with rfl | hp
      · exact step_wf g x c c1 hstep
      · exact hwf x (List.mem_append_right _ (List.mem_cons_of_mem _ hp))
  · simp only [writers, List.countP_append, List.countP_cons] at hW ⊢
    omega
  · simp only [readers, List.countP_append, List.countP_cons] at hR ⊢
    omega

theorem call_of_idle (op : Op) (c : memoryStore) (h : c.idle) :
    op.call c = some { s := op.access c.s, RWMutex := sync.RWMutex.zero } := by
  cases op with
  | add id cont => exact Add_of_idle c h id cont
  | delete id => exact Delete_of_idle c h id
  | get id =>
    simp only [Op.call, Get_of_idle c h id, Option.map_some', Op.access]
    exact congrArg some (idle_eq c h)

theorem step_three_eq_call (g : Goroutine) (op : Op) (c : memoryStore) (h : c.idle)
    (hop : g.calls[g.next]? = some op) (hph : g.phase = Phase.start) :
    ((g.step c).bind (fun r => r.1.step r.2)).bind (fun r => r.1.step r.2)
      = (op.call c).map (fun c1 => ({ g with next := g.next + 1 }, c1)) := by
  rw [call_of_idle op c h, idle_eq c h]
  obtain ⟨calls, next, phase⟩ := g
  simp only at hop hph
  subst hph
  cases hw : op.takesWriteLock <;>
    simp [Goroutine.step, hop, hw, sync.RWMutex.Lock, sync.RWMutex.RLock,
      sync.RWMutex.Unlock, sync.RWMutex.RUnlock, sync.RWMutex.zero]

theorem effects_append (l₁ l₂ : List Op) (f : Lookup) :
    effects (l₁ ++ l₂) f = effects l₂ (effects l₁ f) := by
  simp [effects, List.foldl_append]

theorem runOps_lookupFn (ops : List Op) (c : memoryStore) (h : c.idle) :
    ∃ t, runOps c ops = some t ∧ t.idle ∧ t.s.lookupFn = effects ops c.s.lookupFn := by
  induction ops generalizing c with
  | nil => exact ⟨c, rfl, h, rfl⟩
  | cons op ops ih =>
    obtain ⟨t, ht, hi, hl⟩ := ih { s := op.access c.s, RWMutex := sync.RWMutex.zero } rfl
    refine ⟨t, ?_, hi, ?_⟩
    · simp only [runOps, call_of_idle op c h, Option.some_bind]
      exact ht
    · rw [hl, lookupFn_access]
      rfl

theorem tally_finished (gs : List Goroutine) (f : Lookup)
    (h : ∀ g ∈ gs, g.finished = true) :
    tally gs f = effects (gs.map Goroutine.calls).flatten f := by
  induction gs generalizing f with
  | nil => rfl
  | cons g gs ih =>
    have hg := h g (List.mem_cons_self _ _)
    simp only [Goroutine.finished, Bool.and_eq_true, decide_eq_true_eq, beq_iff_eq] at hg
    have hp : g.performed = g.calls := by
      simp only [Goroutine.performed, hg.2, reduceCtorEq, if_false, Nat.add_zero]
      exact List.take_of_length_le hg.1
    rw [tally_cons, ih _ (fun x hx => h x (List.mem_cons_of_mem _ hx)), hp,
      List.map_cons, List.flatten_cons, effects_append]

theorem tally_init (progs : List (List Op)) (f : Lookup) :
    tally (progs.map Goroutine.init) f = f := by
  induction progs generalizing f with
  | nil => rfl
  | cons p ps ih =>
    rw [List.map_cons, tally_cons, ih]
    simp [Goroutine.performed, Goroutine.init, effects]

theorem safe_init (progs : List (List Op)) : Safe (progs.map Goroutine.init) NewMemoryStore := by
  have hstart : ∀ g ∈ progs.map Goroutine.init, g.phase = Phase.start := by
    intro g hg
    obtain ⟨p, -, rfl⟩ := List.mem_map.1 hg
    rfl
  refine ⟨fun g hg => Or.inl (hstart g hg), ?_, ?_, fun h => rfl⟩
  · simp only [writers, NewMemoryStore, sync.RWMutex.zero, Bool.false_eq_true, if_false]
    rw [List.countP_eq_zero]
    intro g hg
    rw [(holds_start g (hstart g hg)).1]
    simp
  · simp only [readers, NewMemoryStore, sync.RWMutex.zero]
    rw [List.countP_eq_zero]
    intro g hg
    rw [(holds_start g (hstart g hg)).2]
    simp

theorem runSchedule_inv (progs : List (List Op)) (hd : progs.Pairwise disjointIds)
    (sched : List Nat) (w : List Goroutine × memoryStore)
    (h1 : w.1.map Goroutine.calls = progs) (h2 : Safe w.1 w.2)
    (h3 : w.2.s.lookupFn = tally w.1 (fun _ => none)) :
    (runSchedule sched w).1.map Goroutine.calls = progs ∧
      Safe (runSchedule sched w).1 (runSchedule sched w).2 ∧
      (runSchedule sched w).2.s.lookupFn = tally (runSchedule sched w).1 (fun _ => none) := by
  induction sched generalizing w with
  | nil => exact ⟨h1, h2, h3⟩
  | cons i rest ih =>
    simp only [runSchedule]
    cases hstep : stepAt w.1 i w.2 with
    | none => exact ih w h1 h2 h3
    | some r =>
      obtain ⟨gs1, c1⟩ := r
      have hd1 : (w.1.map Goroutine.calls).Pairwise disjointIds := by rw [h1]; exact hd
      obtain ⟨k1, k3⟩ := stepAt_tally w.1 gs1 i w.2 c1 hstep hd1 h3
      exact ih (gs1, c1) (k1.trans h1) (stepAt_safe w.1 gs1 i w.2 c1 hstep h2) k3

theorem current_call (g : Goroutine) (hlt : g.next < g.calls.length) :
    ∃ op, g.calls[g.next]? = some op :=
  ⟨g.calls.get ⟨g.next, hlt⟩, List.getElem?_eq_some.2 ⟨hlt, rfl⟩⟩

theorem step_enabled (gs : List Goroutine) (c : memoryStore) (hs : Safe gs c)
    (g : Goroutine) (hg : g ∈ gs) (hinside : g.phase ≠ Phase.start) :
    (g.step c).isSome = true := by
  obtain ⟨hwf, hW, hR, -⟩ := hs
  obtain ⟨op, hop⟩ := current_call g ((hwf g hg).resolve_left hinside)
  obtain ⟨kW, kR⟩ := holds_inside g op hop hinside
  unfold Goroutine.step
  rw [hop]
  cases hph : g.phase with
  | start => exact absurd hph hinside
  | locked => rfl
  | accessed =>
    cases hw : op.takesWriteLock
    · have hpos : 0 < readers gs :=
        List.countP_pos_iff.2 ⟨g, hg, by rw [kR, hw]; rfl⟩
      rw [hR] at hpos
      simp [hw, sync.RWMutex.RUnlock, hpos]
    · have hpos : 0 < writers gs :=
        List.countP_pos_iff.2 ⟨g, hg, by rw [kW, hw]⟩
      rw [hW] at hpos
      have hwt : c.RWMutex.writer = true := by
        by_contra hc
        simp [hc] at hpos
      simp [hw, sync.RWMutex.Unlock, hwt]

theorem step_enabled_free (c : memoryStore) (h : c.idle) (g : Goroutine)
    (hph : g.phase = Phase.start) (hlt : g.next < g.calls.length) :
    (g.step c).isSome = true := by
  obtain ⟨op, hop⟩ := current_call g hlt
  have hz : c.RWMutex = sync.RWMutex.zero := h
  unfold Goroutine.step
  rw [hop, hph, hz]
  cases hw : op.takesWriteLock <;> simp [hw, sync.RWMutex.Lock, sync.RWMutex.RLock, sync.RWMutex.zero]

theorem progress (gs : List Goroutine) (c : memoryStore) (hs : Safe gs c)
    (hu : ∃ g ∈ gs, g.finished = false) : ∃ i, (stepAt gs i c).isSome = true := by
  have key : ∃ g ∈ gs, (g.step c).isSome = true := by
    by_cases hin : ∃ g ∈ gs, g.phase ≠ Phase.start
    · obtain ⟨g, hg, hph⟩ := hin
      exact ⟨g, hg, step_enabled gs c hs g hg hph⟩
    · have hall : ∀ g ∈ gs, g.phase = Phase.start := by
        intro g hg
        by_contra hne
        exact hin ⟨g, hg, hne⟩
      obtain ⟨-, hW, hR, -⟩ := hs
      have hW0 : writers gs = 0 := by
        simp only [writers]
        rw [List.countP_eq_zero]
        intro g hg
        rw [(holds_start g (hall g hg)).1]
        simp
      have hR0 : readers gs = 0 := by
        simp only [readers]
        rw [List.countP_eq_zero]
        intro g hg
        rw [(holds_start g (hall g hg)).2]
        simp
      have hidle : c.idle := by
        obtain ⟨s, ⟨w, r⟩⟩ := c
        simp only [memoryStore.idle, sync.RWMutex.zero, sync.RWMutex.mk.injEq]
        simp only at hW hR
        refine ⟨?_, by omega⟩
        cases w
        · rfl
        · rw [hW0] at hW; simp at hW
      obtain ⟨g, hg, hfin⟩ := hu
      have hlt : g.next < g.calls.length := by
        simp only [Goroutine.finished, hall g hg, beq_self_eq_true, Bool.and_true,
          decide_eq_false_iff_not, not_le] at hfin
        exact hfin
      exact ⟨g, hg, step_enabled_free c hidle g (hall g hg) hlt⟩
  obtain ⟨g, hg, hen⟩ := key
  obtain ⟨pre, post, rfl⟩ := List.append_of_mem hg
  obtain ⟨r, hr⟩ := Option.isSome_iff_exists.1 hen
  exact ⟨pre.length, by rw [stepAt_of_split pre post g r.1 c r.2 hr]; rfl⟩

theorem finished_iff_remaining (g : Goroutine) (h : g.wf) :
    g.finished = true ↔ g.remaining = 0 := by
  unfold Goroutine.finished Goroutine.remaining
  cases hph : g.phase with
  | start => simp; omega
  | locked =>
    have hlt : g.next < g.calls.length := h.resolve_left (by rw [hph]; simp)
    simp
    omega
  | accessed =>
    have hlt : g.next < g.calls.length := h.resolve_left (by rw [hph]; simp)
    simp
    omega

theorem completes (n : Nat) (gs : List Goroutine) (c : memoryStore) (hs : Safe gs c)
    (hn : (gs.map Goroutine.remaining).sum = n) :
    ∃ sched, ∀ g ∈ (runSchedule sched (gs, c)).1, g.finished = true := by
  induction n generalizing gs c with
  | zero =>
    refine ⟨[], fun g hg => ?_⟩
    rw [finished_iff_remaining g (hs.1 g hg)]
    exact List.sum_eq_zero_iff.1 hn _ (List.mem_map.2 ⟨g, hg, rfl⟩)
  | succ n ih =>
    have hu : ∃ g ∈ gs, g.finished = false := by
      by_contra hc
      have hall : ∀ g ∈ gs, g.finished = true := by
        intro g hg
        by_contra hne
        exact hc ⟨g, hg, by simpa using hne⟩
      have : (gs.map Goroutine.remaining).sum = 0 := by
        rw [List.sum_eq_zero_iff]
        intro x hx
        obtain ⟨g, hg, rfl⟩ := List.mem_map.1 hx
        exact (finished_iff_remaining g (hs.1 g hg)).1 (hall g hg)
      omega
    obtain ⟨i, hi⟩ := progress gs c hs hu
    obtain ⟨r, hr⟩ := Option.isSome_iff_exists.1 hi
    obtain ⟨gs1, c1⟩ := r
    have hsafe := stepAt_safe gs gs1 i c c1 hr hs
    obtain ⟨pre, g, post, g1, rfl, rfl, hstep⟩ := stepAt_split gs gs1 i c c1 hr
    have hrem := step_remaining g g1 c c1 hstep
    have hn1 : ((pre ++ g1 :: post).map Goroutine.remaining).sum = n := by
      simp only [List.map_append, List.map_cons, List.sum_append, List.sum_cons] at hn ⊢
      omega
    obtain ⟨sched, hsched⟩ := ih _ c1 hsafe hn1
    refine ⟨i :: sched, ?_⟩
    simp only [runSchedule, hr, Option.getD_some]
    exact hsched

theorem lock_of_statement (op : Op) : op.takesWriteLock = op.writesMap := by
  cases op <;> rfl

theorem atStatement_some (g : Goroutine) (op : Op) (h : g.atStatement = some op) :
    g.phase = Phase.locked ∧ g.calls[g.next]? = some op := by
  unfold Goroutine.atStatement at h
  by_cases hph : g.phase = Phase.locked
  · rw [if_pos hph] at h; exact ⟨hph, h⟩
  · rw [if_neg hph] at h; simp at h

theorem holds_atStatement (g : Goroutine) (op : Op) (h : g.atStatement = some op) :
    g.holdsW = op.writesMap ∧ g.holdsR = !op.writesMap := by
  obtain ⟨hph, hop⟩ := atStatement_some g op h
  have := holds_inside g op hop (by rw [hph]; simp)
  rw [lock_of_statement] at this
  exact this

theorem safe_statement (gs : List Goroutine) (c : memoryStore) (hs : Safe gs c)
    (g : Goroutine) (hg : g ∈ gs) (op : Op) (h : g.atStatement = some op) :
    (op.writesMap = true → c.RWMutex.writer = true ∧ c.RWMutex.readers = 0) ∧
    (op.writesMap = false → c.RWMutex.writer = false ∧ 0 < c.RWMutex.readers) := by
  obtain ⟨-, hW, hR, hx⟩ := hs
  obtain ⟨kW, kR⟩ := holds_atStatement g op h
  refine ⟨fun hw => ?_, fun hw => ?_⟩
  · have hpos : 0 < writers gs := List.countP_pos_iff.2 ⟨g, hg, by rw [kW, hw]⟩
    rw [hW] at hpos
    have hwt : c.RWMutex.writer = true := by
      by_contra hc
      simp [hc] at hpos
    exact ⟨hwt, hx hwt⟩
  · have hpos : 0 < readers gs := List.countP_pos_iff.2 ⟨g, hg, by rw [kR, hw]; rfl⟩
    rw [hR] at hpos
    refine ⟨?_, hpos⟩
    cases hwt : c.RWMutex.writer
    · rfl
    · have := hx hwt
      omega

theorem safe_no_race (gs : List Goroutine) (c : memoryStore) (hs : Safe gs c) :
    gs.Pairwise (fun g h => ¬ races g h) := by
  rw [List.pairwise_iff_forall_sublist]
  intro g h hsub hrace
  obtain ⟨a, b, ha, hb, hw⟩ := hrace
  have hg : g ∈ gs := hsub.subset (List.mem_cons_self _ _)
  have hh : h ∈ gs := hsub.subset (List.mem_cons_of_mem _ (List.mem_cons_self _ _))
  obtain ⟨a1, a2⟩ := safe_statement gs c hs g hg a ha
  obtain ⟨b1, b2⟩ := safe_statement gs c hs h hh b hb
  obtain ⟨kWa, -⟩ := holds_atStatement g a ha
  obtain ⟨kWb, -⟩ := holds_atStatement h b hb
  have hboth : a.writesMap = true ∧ b.writesMap = true := by
    rcases hw with hw | hw
    · refine ⟨hw, ?_⟩
      cases hbw : b.writesMap
      · have h1 := (a1 hw).1
        have h2 := (b2 hbw).1
        rw [h1] at h2
        exact absurd h2 (by simp)
      · rfl
    · refine ⟨?_, hw⟩
      cases haw : a.writesMap
      · have h1 := (b1 hw).1
        have h2 := (a2 haw).1
        rw [h1] at h2
        exact absurd h2 (by simp)
      · rfl
  have hcount : 2 ≤ writers gs := by
    have hle := List.Sublist.countP_le (p := Goroutine.holdsW) hsub
    have h2 : List.countP Goroutine.holdsW [g, h] = 2 := by
      simp [List.countP_cons, kWa, kWb, hboth.1, hboth.2]
    unfold writers
    omega
  rw [hs.2.1] at hcount
  split at hcount <;> omega

theorem idle_of_all_start (gs : List Goroutine) (c : memoryStore) (hs : Safe gs c)
    (hall : ∀ g ∈ gs, g.phase = Phase.start) : c.idle := by
  obtain ⟨-, hW, hR, -⟩ := hs
  have hW0 : writers gs = 0 := by
    simp only [writers]
    rw [List.countP_eq_zero]
    intro g hg
    rw [(holds_start g (hall g hg)).1]
    simp
  have hR0 : readers gs = 0 := by
    simp only [readers]
    rw [List.countP_eq_zero]
    intro g hg
    rw [(holds_start g (hall g hg)).2]
    simp
  obtain ⟨s, ⟨w, r⟩⟩ := c
  simp only [memoryStore.idle, sync.RWMutex.zero, sync.RWMutex.mk.injEq]
  simp only at hW hR
  refine ⟨?_, by omega⟩
  cases w
  · rfl
  · rw [hW0] at hW; simp at hW

/-- C12: for any number of goroutines that call `Add`, `Delete` and `Get` on
identifiers no two of them share, and for every interleaving of their steps
(take the lock, make the map statement, release the lock) from a new store:
at most one goroutine holds the write lock, and then none holds the read lock;
a goroutine about to write the map does so with the writer flag set and no
reader, a goroutine about to read it with no writer and the reader count
positive; no two goroutines are both about to make a map statement of which
one writes the map (no data race); the interleaving can always be continued
until every goroutine has returned; and when every goroutine has returned, the
mutex is free and the map holds under every identifier what it holds after the
calls of the goroutines made one after the other on a new store. -/
theorem interleaving_disjoint_ids (progs : List (List Op)) (hd : progs.Pairwise disjointIds)
    (sched : List Nat) :
    ∃ gs c, runSchedule sched (progs.map Goroutine.init, NewMemoryStore) = (gs, c) ∧
      (writers gs ≤ 1 ∧ (0 < writers gs → readers gs = 0)) ∧
      (∀ g ∈ gs, ∀ op, g.atStatement = some op →
        (op.writesMap = true → c.RWMutex.writer = true ∧ c.RWMutex.readers = 0) ∧
        (op.writesMap = false → c.RWMutex.writer = false ∧ 0 < c.RWMutex.readers)) ∧
      gs.Pairwise (fun g h => ¬ races g h) ∧
      (∃ more, ∀ g ∈ (runSchedule more (gs, c)).1, g.finished = true) ∧
      ((∀ g ∈ gs, g.finished = true) →
        c.idle ∧ ∃ t, runOps NewMemoryStore progs.flatten = some t ∧
          ∀ id, c.s.entries.lookup id = t.s.entries.lookup id ∧
            c.s.index id = t.s.index id) := by
  have hinit : (progs.map Goroutine.init).map Goroutine.calls = progs := by
    rw [List.map_map]
    exact List.map_id progs
  have h3 : NewMemoryStore.s.lookupFn = tally (progs.map Goroutine.init) (fun _ => none) := by
    rw [tally_init]; rfl
  obtain ⟨k1, k2, k3⟩ := runSchedule_inv progs hd sched
    (progs.map Goroutine.init, NewMemoryStore) hinit (safe_init progs) h3
  refine ⟨_, _, rfl, ?_, fun g hg op hop => safe_statement _ _ k2 g hg op hop,
    safe_no_race _ _ k2, completes _ _ _ k2 rfl, fun hfin => ?_⟩
  · obtain ⟨-, hW, hR, hx⟩ := k2
    rw [hW, hR]
    cases hw : (runSchedule sched (progs.map Goroutine.init, NewMemoryStore)).2.RWMutex.writer
    · simp
    · simp only [if_true, le_refl, true_and]
      exact fun _ => hx hw
  · have hstart : ∀ g ∈ (runSchedule sched (progs.map Goroutine.init, NewMemoryStore)).1,
        g.phase = Phase.start := by
      intro g hg
      have := hfin g hg
      simp only [Goroutine.finished, Bool.and_eq_true, beq_iff_eq] at this
      exact this.2
    refine ⟨idle_of_all_start _ _ k2 hstart, ?_⟩
    obtain ⟨t, ht, -, hl⟩ := runOps_lookupFn progs.flatten NewMemoryStore rfl
    refine ⟨t, ht, ?_⟩
    have heq : (runSchedule sched (progs.map Goroutine.init, NewMemoryStore)).2.s.lookupFn
        = t.s.lookupFn := by
      rw [k3, tally_finished _ _ hfin, k1, hl]
      rfl
    intro id
    have hid := congrFun heq id
    simp only [GoMap.lookupFn] at hid
    exact ⟨hid, by simp only [GoMap.index, hid]⟩

theorem interleaving_disjoint_ids_witness :
    twoGoroutines.Pairwise disjointIds ∧
    (∃ gs c, runSchedule [0, 1, 0, 0, 1, 1, 1, 0, 0, 0, 1, 1, 1, 0, 0, 0]
        (twoGoroutines.map Goroutine.init, NewMemoryStore) = (gs, c) ∧
      (writers gs ≤ 1 ∧ (0 < writers gs → readers gs = 0)) ∧
      (∀ g ∈ gs, ∀ op, g.atStatement = some op →
        (op.writesMap = true → c.RWMutex.writer = true ∧ c.RWMutex.readers = 0) ∧
        (op.writesMap = false → c.RWMutex.writer = false ∧ 0 < c.RWMutex.readers)) ∧
      gs.Pairwise (fun g h => ¬ races g h) ∧
      (∃ more, ∀ g ∈ (runSchedule more (gs, c)).1, g.finished = true) ∧
      ((∀ g ∈ gs, g.finished = true) →
        c.idle ∧ ∃ t, runOps NewMemoryStore twoGoroutines.flatten = some t ∧
          ∀ id, c.s.entries.lookup id = t.s.entries.lookup id ∧
            c.s.index id = t.s.index id)) ∧
    (runSchedule [0, 1, 0, 0, 1, 1, 1, 0, 0, 0, 1, 1, 1, 0, 0, 0]
        (twoGoroutines.map Goroutine.init, NewMemoryStore)).1.all Goroutine.finished = true ∧
    (runSchedule [0, 1, 0, 0, 1, 1, 1, 0, 0, 0, 1, 1, 1, 0, 0, 0]
        (twoGoroutines.map Goroutine.init, NewMemoryStore)).2.s.entries
      = [("b", some ⟨"b", 1⟩)] ∧
    (runOps NewMemoryStore twoGoroutines.flatten).map (fun t => t.s.entries)
      = some [("b", some ⟨"b", 1⟩)] ∧
    (runSchedule [0] (twoGoroutines.map Goroutine.init, NewMemoryStore)).1.map
        Goroutine.atStatement = [some (Op.add "a" none), none] ∧
    (runSchedule [0] (twoGoroutines.map Goroutine.init, NewMemoryStore)).2.RWMutex
      = { writer := true, readers := 0 } ∧
    (runSchedule [0, 1, 1] (twoGoroutines.map Goroutine.init, NewMemoryStore)).1
      = (runSchedule [0] (twoGoroutines.map Goroutine.init, NewMemoryStore)).1 ∧
    (runSchedule [0, 0, 0, 1, 1, 1, 0, 1]
        (twoGoroutines.map Goroutine.init, NewMemoryStore)).1.map Goroutine.atStatement
      = [some (Op.get "a"), some (Op.get "b")] ∧
    (runSchedule [0, 0, 0, 1, 1, 1, 0, 1]
        (twoGoroutines.map Goroutine.init, NewMemoryStore)).2.RWMutex
      = { writer := false, readers := 2 } :=
  ⟨by decide,
    interleaving_disjoint_ids twoGoroutines (by decide)
      [0, 1, 0, 0, 1, 1, 1, 0, 0, 0, 1, 1, 1, 0, 0, 0],
    by decide, by decide, by decide, by decide, by decide, by decide, by decide, by decide⟩

end container
